import Mathlib

/-!
# Verification of the OpenLane configuration-resolution engine

A shallow embedding of `openlane/config/config.py`: the Python values a
configuration can hold, the ordered mappings (`GenericDict`) used for the
working set and the final configuration, the deprecation/migration engine
and validator `Config.process_variable_list`, and the load pipeline
(`Config._load_dict`, `Config._loads_tcl`).

External collaborators (the variable-specification `compile` contract, the
`resolve` special-key extractor, the Tcl evaluator, and the on-disk PDK
fetch) are modelled as parameters or, where the specification pins their
behaviour, as definitions marked "Modelled from the spec".
-/

/-- A Python/JSON value as it can appear in an OpenLane configuration.
`path` models `openlane.state.Path`, a `str` subclass; `macroObj` models a
compiled `Macro` object with its `module`, `gds` and `spef` attributes. -/
inductive Value where
  | null
  | bool (b : Bool)
  | int (n : Int)
  | str (s : String)
  | path (s : String)
  | list (xs : List Value)
  | dict (xs : List (Value × Value))
  | macroObj (module gds spef : Value)

/-- Python `==` restricted to the hashable scalar values that are ever used
as dictionary keys or compared against string literals in the translated
code (`True == 1`, and a `Path` compares equal to the identical `str`).
Container equality is never exercised by the translated code paths, so
containers compare unequal here. -/
def pyEq : Value → Value → Bool
  | .null, .null => true
  | .bool a, .bool b => a == b
  | .bool a, .int n => (if a then (1 : Int) else 0) == n
  | .int n, .bool b => n == (if b then (1 : Int) else 0)
  | .int a, .int b => a == b
  | .str a, .str b => a == b
  | .str a, .path b => a == b
  | .path a, .str b => a == b
  | .path a, .path b => a == b
  | _, _ => false

/-- Python truthiness, as used by `x or y` and `if x:` in the source. -/
def pyTruthy : Value → Bool
  | .null => false
  | .bool b => b
  | .int n => n != 0
  | .str s => s != ""
  | .path s => s != ""
  | .list xs => !xs.isEmpty
  | .dict xs => !xs.isEmpty
  | .macroObj _ _ _ => true

/-- Whether a value may be used as a Python dictionary key (lists and
dictionaries are unhashable and raise `TypeError`). -/
def hashable : Value → Bool
  | .list _ => false
  | .dict _ => false
  | _ => true

/-- An ordered string-keyed mapping: the model of `GenericDict` /
`GenericImmutableDict` contents. The validator asserts every key of a
working set is a `str`, so top-level keys are strings. -/
abbrev WorkingSet := List (String × Value)

/-- The final, processed configuration contents (also a `GenericDict`). -/
abbrev FinalSet := List (String × Value)

/-- Lookup of the first entry with the given key. -/
def wsGet {A : Type} (ws : List (String × A)) (k : String) : Option A :=
  match ws with
  | [] => none
  | (k', v) :: rest => if k' = k then some v else wsGet rest k

/-- `d[k] = v` on an ordered mapping: replace in place, else append. -/
def wsSet {A : Type} (ws : List (String × A)) (k : String) (v : A) : List (String × A) :=
  match ws with
  | [] => [(k, v)]
  | (k', v') :: rest => if k' = k then (k', v) :: rest else (k', v') :: wsSet rest k v

/-- `del d[k]` on an ordered mapping: remove the first entry with key `k`. -/
def wsDel {A : Type} (ws : List (String × A)) (k : String) : List (String × A) :=
  match ws with
  | [] => []
  | (k', v') :: rest => if k' = k then rest else (k', v') :: wsDel rest k

/-- Lookup in a value-keyed Python dictionary (`mutable["MACROS"][module]`
reads), comparing keys with Python `==`. -/
def dictGet (d : List (Value × Value)) (k : Value) : Option Value :=
  match d with
  | [] => none
  | (k', v) :: rest => if pyEq k' k then some v else dictGet rest k

/-- Item assignment in a value-keyed Python dictionary: an existing equal
key keeps its position and original key object, otherwise append. -/
def dictSet (d : List (Value × Value)) (k v : Value) : List (Value × Value) :=
  match d with
  | [] => [(k, v)]
  | (k', v') :: rest => if pyEq k' k then (k', v) :: rest else (k', v') :: dictSet rest k v

/-- Whether `pat` occurs as a contiguous sublist of `hay`: the model of
Python's `pat in key` substring test. -/
def charsContain (hay pat : List Char) : Bool :=
  match hay with
  | [] => pat.isEmpty
  | _ :: t => pat.isPrefixOf hay || charsContain t pat

/-- Python `pat in s` on strings. -/
def strContains (s pat : String) : Bool := charsContain s.data pat.data

/-- The ASCII characters Python `int(str)` strips as surrounding
whitespace: codepoints 9-13 (tab, newline, vertical tab, form feed,
carriage return) and 32 (space) — the C `isspace` set used by CPython's
string-to-integer conversion after its ASCII transform. -/
def isSpaceChar (c : Char) : Bool :=
  c == ' ' || (decide (9 ≤ c.toNat) && decide (c.toNat ≤ 13))

/-- ASCII decimal digit. -/
def isDigitChar (c : Char) : Bool := decide ('0' ≤ c) && decide (c ≤ '9')

/-- The tail of a digit run with PEP 515 underscore separators: each
underscore must be followed by a digit (so underscores are single and
strictly between digits), accumulating the denoted number. -/
def digitsUTail (acc : Nat) : List Char → Option Nat
  | [] => some acc
  | '_' :: c :: rest =>
    if isDigitChar c then digitsUTail (acc * 10 + (c.toNat - 48)) rest else none
  | ['_'] => none
  | c :: rest =>
    if isDigitChar c then digitsUTail (acc * 10 + (c.toNat - 48)) rest else none

/-- A non-empty run of ASCII decimal digits with single underscores
strictly between digits (the digit grammar of CPython `int(str)` after
PEP 515), else `none`. -/
def digitsValue (cs : List Char) : Option Nat :=
  match cs with
  | [] => none
  | c :: rest => if isDigitChar c then digitsUTail (c.toNat - 48) rest else none

/-- Python `int()` applied to an ASCII string: optional surrounding
whitespace, an optional sign, then ASCII decimal digits with single
underscore separators between digits; anything else raises `ValueError`.
(Non-ASCII characters — Unicode decimal digits and the non-ASCII
whitespace CPython also strips — are outside the model, which is why the
theorems over string values carry an all-ASCII hypothesis.) -/
def parseIntChars (cs : List Char) : Option Int :=
  let t := (cs.dropWhile isSpaceChar).reverse.dropWhile isSpaceChar |>.reverse
  match t with
  | '-' :: rest => (digitsValue rest).map (fun n => -(n : Int))
  | '+' :: rest => (digitsValue rest).map (fun n => (n : Int))
  | rest => (digitsValue rest).map (fun n => (n : Int))

/-- Python `int()` on a string value. -/
def parseIntPy (s : String) : Option Int := parseIntChars s.data

/-- Whether every character of a string is ASCII: the domain on which the
`int()` model above is exact. -/
def asciiOnly (s : String) : Bool := s.data.all (fun c => decide (c.toNat < 128))

/-- Python `str.split(" ")`: split at every single space, keeping empty
segments; the empty string yields `[""]`. -/
def splitSpaceChars : List Char → List (List Char)
  | [] => [[]]
  | c :: rest =>
    let segs := splitSpaceChars rest
    if c = ' ' then [] :: segs
    else
      match segs with
      | seg :: tail => (c :: seg) :: tail
      | [] => [[c]]

/-- `EXTRA_SPEFS.split(" ")` as a list of string values. -/
def pySplitSpace (s : String) : List Value :=
  (splitSpaceChars s.data).map (fun cs => Value.str (String.mk cs))

/-- Code-unit comparison of strings, for Python `sorted`. -/
def leChars : List Char → List Char → Bool
  | [], _ => true
  | _ :: _, [] => false
  | a :: as, b :: bs => if a = b then leChars as bs else decide (a < b)

/-- Insert into a sorted list of strings. -/
def insertSorted (s : String) : List String → List String
  | [] => [s]
  | t :: rest => if leChars s.data t.data then s :: t :: rest else t :: insertSorted s rest

/-- Python `sorted` over a list of string keys. -/
def pySorted (l : List String) : List String := l.foldr insertSorted []

/-- The warnings the validator can append, one constructor per `append`
site in the source, carrying the interpolated data. -/
inductive CWarning where
  | disDeprecated
  | extraSpefsDeprecated
  | removedKey (key note : String)
  | unknownKey (key : String)
  | compileWarning (msg : String)
deriving DecidableEq

/-- The errors the resolution pipeline can append, one constructor per
`append`/`raise` message in the source, carrying the interpolated data.
`pdkNotFound` is the error raised by `_get_pdk_config` when the PDK
directory does not exist. -/
inductive CError where
  | disNotAvailable (dis : Value)
  | extraSpefsInvalidType (v : Value)
  | extraSpefsNotDivisible
  | compileError (msg : String)
  | metaInvalid (msg : String)
  | pdkNotFound (pdk : Value)

/-- Uncaught Python exceptions the translated code can raise. -/
inductive PyError where
  | typeError
  | keyError (key : String)
  | indexError
  | attributeError
  | valueErrorUnpack
deriving DecidableEq

/-- Modelled from the spec: the external variable-specification contract
(`openlane/config/variable.py`, not part of the analysed sources). A
variable has a unique name and a `compile` operation that receives the
mutable working set, the warning list (a mutable reference in Python,
modelled by returning the updated list), and the values finalized so far;
it returns the consumed raw key (if any) and the normalized value, or
fails with a `ValueError` message. -/
structure Variable where
  name : String
  compile : WorkingSet → List CWarning → FinalSet →
    Except String (Option String × Value × List CWarning)

/-- The state threaded through the deprecation/migration blocks of
`process_variable_list`. -/
structure MigState where
  mutableCfg : WorkingSet
  final : FinalSet
  warnings : List CWarning
  errors : List CError

/-- Outcome of Python `int(x)` on a configuration value: a coerced
integer, a caught `ValueError` (string that fails to parse, leaving the
original value in place), or an uncaught `TypeError` (lists, mappings). -/
inductive IntCoerce where
  | ok (n : Int)
  | valueError
  | typeError

/-- `int(dis)` with `bool` being an `int` subclass and `Path` a `str`
subclass. -/
def pyInt : Value → IntCoerce
  | .int n => .ok n
  | .bool b => .ok (if b then 1 else 0)
  | .str s =>
    match parseIntPy s with
    | some n => .ok n
    | none => .valueError
  | .path s =>
    match parseIntPy s with
    | some n => .ok n
    | none => .valueError
  | _ => .typeError

/-- The writes to the final set performed by an accepted
`DIODE_INSERTION_STRATEGY` value `n` (config.py lines 646-653): the three
modern keys are first set to their disabled defaults and then the
`[3, 6]` and `[5, 6]` membership tests selectively enable them. -/
def disFinalUpdate (n : Int) (fin : FinalSet) : FinalSet :=
  let f0 := wsSet (wsSet (wsSet fin "GRT_REPAIR_ANTENNAS" (.bool false))
    "RUN_HEURISTIC_DIODE_INSERTION" (.bool false)) "DIODE_ON_PORTS" (.str "none")
  let f1 := if n = 3 ∨ n = 6 then wsSet f0 "GRT_REPAIR_ANTENNAS" (.bool true) else f0
  if n = 5 ∨ n = 6 then
    wsSet (wsSet f1 "RUN_HEURISTIC_DIODE_INSERTION" (.bool true)) "DIODE_ON_PORTS" (.str "in")
  else f1

/-- The `DIODE_INSERTION_STRATEGY` deprecation block of
`process_variable_list` (config.py lines 628-653). The key is read and, if
its value is not `None`, deleted; `int` coercion is attempted with
`ValueError` suppressed; values that are still not integers, or are `1`,
`2`, `5`, or greater than `6`, append one error; otherwise one deprecation
warning is appended and the three modern keys are written to the final
set. -/
def disStep (st : MigState) : Except PyError MigState :=
  match wsGet st.mutableCfg "DIODE_INSERTION_STRATEGY" with
  | none => .ok st
  | some .null => .ok st
  | some v =>
    let m := wsDel st.mutableCfg "DIODE_INSERTION_STRATEGY"
    match pyInt v with
    | .typeError => .error .typeError
    | .valueError =>
      .ok { st with mutableCfg := m, errors := st.errors ++ [.disNotAvailable v] }
    | .ok n =>
      if n = 1 ∨ n = 2 ∨ n = 5 ∨ n > 6 then
        .ok { st with mutableCfg := m, errors := st.errors ++ [.disNotAvailable (.int n)] }
      else
        .ok { st with
                mutableCfg := m
                final := disFinalUpdate n st.final
                warnings := st.warnings ++ [.disDeprecated] }

/-- The per-macro dictionary built for one `(module, min, nom, max)`
quadruple (config.py lines 686-691). -/
def macroDictOf (module mn nom mx : Value) : Value :=
  .dict [(.str "module", module), (.str "gds", .list [.str "/dev/null"]),
         (.str "spef", .dict [(.str "min_*", .list [mn]), (.str "nom_*", .list [nom]),
                              (.str "max_*", .list [mx])])]

/-- A Python list index: an integer (with `bool` as an `int` subclass)
taken as-is, anything else refusing with `TypeError` (`none`). -/
def listIndex : Value → Option Int
  | .int n => some n
  | .bool b => some (if b then 1 else 0)
  | _ => none

/-- Resolution of a Python list index against a length: a negative index
counts from the end; an index out of `[-len, len)` raises `IndexError`
(`none`). -/
def pyIndex (n : Int) (len : Nat) : Option Nat :=
  if 0 ≤ n then (if n < len then some n.toNat else none)
  else (if -n ≤ (len : Int) then some (len - (-n).toNat) else none)

/-- Replace the element at a (valid) position of a list. -/
def listSetAt : List Value → Nat → Value → List Value
  | [], _, _ => []
  | _ :: rest, 0, v => v :: rest
  | x :: rest, n + 1, v => x :: listSetAt rest n v

/-- The quadruple loop of the `EXTRA_SPEFS` migration:
`mutable["MACROS"][module] = macro_dict` for each quadruple, with Python
item-assignment semantics on the `MACROS` value: a dictionary accepts any
hashable key (an unhashable module raises `TypeError`); a list accepts an
integer or boolean index, counting negative indices from the end and
raising `IndexError` out of range and `TypeError` for any other index
type; every other value raises `TypeError`; an absent key raises
`KeyError`. -/
def insertMacros : List Value → WorkingSet → Except PyError WorkingSet
  | [], mtbl => .ok mtbl
  | module :: mn :: nom :: mx :: rest, mtbl =>
    match wsGet mtbl "MACROS" with
    | some (.dict d) =>
      if hashable module then
        insertMacros rest (wsSet mtbl "MACROS" (.dict (dictSet d module (macroDictOf module mn nom mx))))
      else .error .typeError
    | some (.list xs) =>
      match listIndex module with
      | some n =>
        match pyIndex n xs.length with
        | some i =>
          insertMacros rest (wsSet mtbl "MACROS" (.list (listSetAt xs i (macroDictOf module mn nom mx))))
        | none => .error .indexError
      | none => .error .typeError
    | some _ => .error .typeError
    | none => .error (.keyError "MACROS")
  | _ :: _, _ => .error .typeError

/-- `mutable.get("MACROS") or {}` (config.py line 658): a truthy
pre-existing value is kept, otherwise a fresh empty dictionary. -/
def spefMacros0 (ws : WorkingSet) : Value :=
  match wsGet ws "MACROS" with
  | some mv => if pyTruthy mv then mv else .dict []
  | none => .dict []

/-- The `EXTRA_SPEFS` deprecation block of `process_variable_list`
(config.py lines 656-692). If the key is present and not `None`:
`mutable["MACROS"]` is replaced by `{}` unless already truthy, the key is
deleted, a string (or string-subclass path) value is split on single
spaces, a non-list value
appends a type error, a list whose length is not divisible by four appends
a length error, and otherwise one deprecation warning is appended and each
quadruple is folded into `mutable["MACROS"]`. Returns the state and the
`translated_macros` flag. -/
def spefStep (st : MigState) : Except PyError (MigState × Bool) :=
  match wsGet st.mutableCfg "EXTRA_SPEFS" with
  | none => .ok (st, false)
  | some .null => .ok (st, false)
  | some v =>
    let m1 := wsSet st.mutableCfg "MACROS" (spefMacros0 st.mutableCfg)
    let m2 := wsDel m1 "EXTRA_SPEFS"
    let lst : Value :=
      match v with
      | .str s => .list (pySplitSpace s)
      | .path s => .list (pySplitSpace s)
      | other => other
    match lst with
    | .list xs =>
      if xs.length % 4 ≠ 0 then
        .ok ({ st with mutableCfg := m2, errors := st.errors ++ [.extraSpefsNotDivisible] }, false)
      else
        match insertMacros xs m2 with
        | .ok mtbl' =>
          .ok ({ st with
                  mutableCfg := mtbl'
                  warnings := st.warnings ++ [.extraSpefsDeprecated] }, true)
        | .error e => .error e
    | other =>
      .ok ({ st with mutableCfg := m2, errors := st.errors ++ [.extraSpefsInvalidType other] }, false)

/-- A `MACROS` entry that is absent or Python-falsy (`None`, `False`, `0`,
the empty string, list or mapping): exactly the values
`mutable.get("MACROS") or {}` replaces with a fresh empty dictionary. -/
def macrosAbsentOrFalsy (ws : WorkingSet) : Prop :=
  match wsGet ws "MACROS" with
  | none => True
  | some v => pyTruthy v = false

/-- The per-variable compilation loop of `process_variable_list`
(config.py lines 694-705): every variable is attempted in order; on
success the consumed key (if any) is deleted from the working set and the
normalized value stored under the variable's name; on failure one error is
appended and the loop continues. -/
def compileLoop : List Variable → WorkingSet → FinalSet → List CWarning → List CError →
    WorkingSet × FinalSet × List CWarning × List CError
  | [], mtbl, fin, w, e => (mtbl, fin, w, e)
  | v :: rest, mtbl, fin, w, e =>
    match v.compile mtbl w fin with
    | .ok (key, value_processed, w') =>
      let mtbl' := match key with | some k => wsDel mtbl k | none => mtbl
      compileLoop rest mtbl' (wsSet fin v.name value_processed) w' e
    | .error msg => compileLoop rest mtbl fin w (e ++ [.compileError msg])

/-- Modelled from the spec: the special process keys
(`openlane/config/resolve.py`'s `Keys`, not part of the analysed sources):
technology root, technology name, library name and design directory.
(The source tests membership in `vars(SpecialKeys).values()`; the model
uses the four documented key strings.) -/
def specialKeysValues : List String := ["PDK_ROOT", "PDK", "STD_CELL_LIBRARY", "DESIGN_DIR"]

/-- The body of the leftover-key loop for one key (config.py lines
710-715): special keys are skipped, keys in the removed table append a
removed warning, and other keys append an unknown-key warning unless they
contain `"_OPT"` or equal `"//"`. -/
def leftoverWarning1 (key : String) (removed : List (String × String)) : List CWarning :=
  if key ∈ specialKeysValues then []
  else
    match List.lookup key removed with
    | some note => [CWarning.removedKey key note]
    | none =>
      if ¬strContains key "_OPT" ∧ key ≠ "//" then [CWarning.unknownKey key] else []

/-- The leftover-key pass of `process_variable_list` (config.py lines
707-715) over the sorted remaining keys. -/
def leftoverWarnings : List String → List (String × String) → List CWarning
  | [], _ => []
  | key :: rest, removed => leftoverWarning1 key removed ++ leftoverWarnings rest removed

/-- Python `macro.gds == "/dev/null"`. -/
def isDevNull (v : Value) : Bool :=
  match v with
  | .str s => s == "/dev/null"
  | .path s => s == "/dev/null"
  | _ => false

/-- The placeholder normalization of `process_variable_list` (config.py
lines 717-720): when macros were translated, every macro in
`final["MACROS"]` whose `gds` equals `"/dev/null"` has it replaced by
`Path("")`. A missing `"MACROS"` entry raises `KeyError`; a non-macro
value raises `AttributeError` when `.gds` is accessed. -/
def normalizeMacro1 (v : Value) : Except PyError Value :=
  match v with
  | .macroObj mo g s =>
    .ok (if isDevNull g then Value.macroObj mo (.path "") s else Value.macroObj mo g s)
  | _ => .error PyError.attributeError

/-- The loop over `final["MACROS"].values()`. -/
def normalizeMacros (fin : FinalSet) : Except PyError FinalSet :=
  match wsGet fin "MACROS" with
  | none => .error (.keyError "MACROS")
  | some (.dict d) => do
    let entries ← d.mapM (fun kv => (normalizeMacro1 kv.2).map (fun v => (kv.1, v)))
    .ok (wsSet fin "MACROS" (.dict entries))
  | some _ => .error .typeError

/-- `Config.process_variable_list` (config.py lines 599-722): the
deprecation/migration blocks, the per-variable compilation loop, the
leftover-key pass over the sorted remaining keys, and the macro
placeholder normalization. Operates on a copy of the receiver and returns
the final configuration contents together with the warning and error
lists. -/
def process_variable_list (self : WorkingSet) (variableList : List Variable)
    (removed : List (String × String)) :
    Except PyError (FinalSet × List CWarning × List CError) := do
  let st0 : MigState := ⟨self, [], [], []⟩
  let st1 ← disStep st0
  let (st2, translated) ← spefStep st1
  let (mtbl, fin, w, e) := compileLoop variableList st2.mutableCfg st2.final st2.warnings st2.errors
  let w2 := w ++ leftoverWarnings (pySorted (mtbl.map Prod.fst)) removed
  let fin2 ← if translated then normalizeMacros fin else .ok fin
  .ok (fin2, w2, e)

/-- The `meta` record attached to every configuration (`Meta` dataclass,
config.py lines 48-51). Field values are not type-checked by the
dataclass, so they are kept as raw values. -/
structure MetaObj where
  version : Value
  flow : Value

/-- The default `Meta()`: version 1, flow `"Classic"`. -/
def defaultMeta : MetaObj := ⟨.int 1, .str "Classic"⟩

/-- Whether every key of a keyword-argument mapping is one of the `Meta`
dataclass fields; any other (or non-string) key makes `Meta(**meta_raw)`
raise `TypeError`. -/
def metaKwargsOk (xs : List (Value × Value)) : Bool :=
  xs.all fun kv =>
    match kv.1 with
    | .str s => s == "version" || s == "flow"
    | _ => false

/-- `Meta(**meta_raw)` (config.py lines 414-417): builds the record, or
fails with the `TypeError` message that `_load_dict` catches and turns
into a design error. -/
def metaParse (v : Value) : Except String MetaObj :=
  match v with
  | .dict xs =>
    if metaKwargsOk xs then
      .ok ⟨(dictGet xs (.str "version")).getD (.int 1),
           (dictGet xs (.str "flow")).getD (.str "Classic")⟩
    else .error "unexpected keyword argument"
  | _ => .error "argument after must be a mapping"

/-- The exceptions the load pipeline can raise: the aggregated
`InvalidConfig` error carrying a source name and the full warning and
error lists, the `ValueError` demanding a `pdk` argument, and uncaught
Python exceptions. -/
inductive LoadError where
  | invalidConfig (config : String) (warnings : List CWarning) (errors : List CError)
  | pdkRequired
  | py (e : PyError)

/-- The `meta` extraction of `_load_dict` (config.py lines 369-372): a
non-`None` `meta` entry is removed from the raw mapping and remembered. -/
def stripMeta (raw : WorkingSet) : Option Value × WorkingSet :=
  match wsGet raw "meta" with
  | some v => if v matches .null then (none, raw) else (some v, wsDel raw "meta")
  | none => (none, raw)

/-- `string.split("=", 1)`: split an override string at its first `=`;
a string with no `=` makes the unpacking raise `ValueError`. -/
def splitFirstEq : List Char → Option (List Char × List Char)
  | [] => none
  | c :: rest =>
    if c = '=' then some ([], rest)
    else (splitFirstEq rest).map (fun p => (c :: p.1, p.2))

/-- One `KEY=VALUE` override string as a key/value pair. -/
def splitOverride (s : String) : Except PyError (String × String) :=
  match splitFirstEq s.data with
  | some (k, v) => .ok (String.mk k, String.mk v)
  | none => .error .valueErrorUnpack

/-- The override loop of `_load_dict` (config.py lines 374-376): each
override string is split on its first `=` and assigned into the raw
mapping, in order. -/
def applyOverrides (ws : WorkingSet) : List String → Except PyError WorkingSet
  | [] => .ok ws
  | s :: rest =>
    match splitOverride s with
    | .ok p => applyOverrides (wsSet ws p.1 (.str p.2)) rest
    | .error e => .error e

/-- Modelled from the spec: `resolve(raw, only_extract_process_info=True)`
(`openlane/config/resolve.py`, not part of the analysed sources) extracts
the small fixed set of special process keys from the raw mapping with no
validation. -/
def resolveSpecial (raw : WorkingSet) : WorkingSet :=
  raw.filter (fun kv => kv.1 ∈ specialKeysValues)

/-- `pdk = process_info.get(SpecialKeys.pdk) or pdk` followed by the
`is None` check (config.py lines 384-388): a truthy extracted value wins,
otherwise the explicit argument; `none` means the `ValueError` fires. -/
def effectivePdk (processInfo : WorkingSet) (pdkArg : Option Value) : Option Value :=
  match wsGet processInfo "PDK" with
  | some v => if pyTruthy v then some v else pdkArg
  | none => pdkArg

/-- The external collaborators of the load pipeline: the on-disk PDK/SCL
configuration fetch (`_get_pdk_config`, which performs all technology file
access), the full `resolve` pass over the design mapping, and the
externally supplied PDK variable list and removed-variable table. -/
structure Externals where
  fetch : Value → Option String → Except LoadError (WorkingSet × String × String)
  resolveFull : WorkingSet → WorkingSet
  pdkVariables : List Variable
  removedVariables : List (String × String)

/-- `Config(config_in, overrides=...)`: shallow copy of the base mapping
with each override entry assigned in order (the copy-with-overrides
construction of the immutable mapping). -/
def mergeOverride (base overrides : WorkingSet) : WorkingSet :=
  overrides.foldl (fun acc kv => wsSet acc kv.1 kv.2) base

/-- The tail of `_load_dict` (config.py lines 413-431): a remembered
`meta` mapping is parsed, a `TypeError` becoming one more design error;
then the aggregated `InvalidConfig` naming the design configuration file
is raised if and only if the error list is non-empty, carrying the full
warning and error lists; otherwise the configuration and its metadata are
delivered. -/
def finishDesignLoad (cfg : FinalSet) (warnings : List CWarning) (errors : List CError)
    (metaRaw : Option Value) : Except LoadError (FinalSet × MetaObj) :=
  let step : MetaObj × List CError :=
    match metaRaw with
    | some m =>
      match metaParse m with
      | .ok mm => (mm, errors)
      | .error e => (defaultMeta, errors ++ [.metaInvalid e])
    | none => (defaultMeta, errors)
  if step.2.isEmpty then .ok (cfg, step.1)
  else .error (.invalidConfig "design configuration file" warnings step.2)

/-- `Config._load_dict` (config.py lines 355-431): extract `meta`, apply
the override strings, extract the special process keys, determine the
effective PDK (raising the `ValueError` when absent), fetch the
technology/library layer, overlay the resolved design mapping, validate
through `process_variable_list`, and finish with the aggregated-error
decision. -/
def load_dict (ext : Externals) (raw : WorkingSet) (flowConfigVars : List Variable)
    (configOverrideStrings : List String) (pdkArg : Option Value) (sclArg : Option String) :
    Except LoadError (FinalSet × MetaObj) := do
  let (metaRaw, raw1) := stripMeta raw
  let raw2 ← (applyOverrides raw1 configOverrideStrings).mapError LoadError.py
  let processInfo := resolveSpecial raw2
  match effectivePdk processInfo pdkArg with
  | none => .error .pdkRequired
  | some pdkV => do
    let (configIn, _pdkpath, _scl) ← ext.fetch pdkV sclArg
    let merged := mergeOverride configIn (ext.resolveFull raw2)
    let r ← (process_variable_list merged (ext.pdkVariables ++ flowConfigVars)
      ext.removedVariables).mapError LoadError.py
    finishDesignLoad r.1 r.2.1 r.2.2 metaRaw

/-- `Config._loads_tcl` (config.py lines 433-511), with the Tcl evaluator
`env_from_tcl` passed as a function. The first evaluation runs with
minimal context to discover the PDK; the technology layer is then fetched
and the script evaluated again with full context. Only after that merge
are the override strings assigned (onto the merged configuration, modelled
as functional assignment), and validation and the aggregated-error
decision follow. -/
def loads_tcl (envFromTcl : WorkingSet → String → WorkingSet) (ext : Externals)
    (config : String) (designDir : String) (flowConfigVars : List Variable)
    (configOverrideStrings : List String) (pdkRoot : String)
    (pdkArg : Option Value) (sclArg : Option String) : Except LoadError FinalSet := do
  let configIn0 : WorkingSet := [("PDK_ROOT", .str pdkRoot), ("PDK", pdkArg.getD .null)]
  let tclVarsIn := wsSet (wsSet configIn0 "STD_CELL_LIBRARY" (.str ""))
    "DESIGN_DIR" (.str designDir)
  let tclConfig := envFromTcl tclVarsIn config
  let processInfo := resolveSpecial tclConfig
  match effectivePdk processInfo pdkArg with
  | none => .error .pdkRequired
  | some pdkV => do
    let (configIn1, _pdkpath, scl) ← ext.fetch pdkV sclArg
    let tclVarsIn2 := wsSet (wsSet (wsSet tclVarsIn "PDK" pdkV)
      "STD_CELL_LIBRARY" (.str scl)) "DESIGN_DIR" (.str designDir)
    let designConfig := envFromTcl tclVarsIn2 config
    let merged := mergeOverride configIn1 designConfig
    let merged2 ← (applyOverrides merged configOverrideStrings).mapError LoadError.py
    let r ← (process_variable_list merged2 (ext.pdkVariables ++ flowConfigVars)
      ext.removedVariables).mapError LoadError.py
    if r.2.2.isEmpty then .ok r.1
    else .error (.invalidConfig "design configuration file" r.2.1 r.2.2)

/-- The failure branch of `_get_pdk_config` (config.py lines 548-555) when
the PDK directory does not exist and no similarly-named candidate is
found: an `InvalidConfig` for the "PDK configuration" whose single error
names the PDK that was not found. Used as a concrete fetch oracle that
records which PDK the pipeline asked for. -/
def fetchNotFound : Value → Option String → Except LoadError (WorkingSet × String × String) :=
  fun pdk _ => .error (.invalidConfig "PDK configuration" [] [.pdkNotFound pdk])

/-- Modelled from the spec: the external `MACROS` variable specification's
normalization of one per-module record. The spec states the migration's
placeholder geometry reference is normalized to an empty path value after
compilation, so the compiled macro's `gds` attribute of a migrated record
must compare equal to the placeholder; a singleton geometry list is
normalized to its sole element. -/
def compileMacroGds (v : Value) : Value :=
  match v with
  | .list [g] => g
  | other => other

/-- Modelled from the spec: one raw per-module mapping compiled into a
`Macro` object with `module`, `gds` and `spef` attributes. -/
def compileMacroRecord (v : Value) : Value :=
  match v with
  | .dict d =>
    .macroObj ((dictGet d (.str "module")).getD .null)
      (compileMacroGds ((dictGet d (.str "gds")).getD .null))
      ((dictGet d (.str "spef")).getD .null)
  | other => other

/-- Modelled from the spec: the external `MACROS` variable specification.
Its compile operation consumes the `MACROS` raw key when present,
normalizing each per-module record; when absent it produces the null
default without consuming a key; a non-mapping value fails. -/
def macrosVariable : Variable where
  name := "MACROS"
  compile := fun mtbl w _fin =>
    match wsGet mtbl "MACROS" with
    | some (.dict d) => .ok (some "MACROS", .dict (d.map fun kv => (kv.1, compileMacroRecord kv.2)), w)
    | some _ => .error "Invalid value for MACROS"
    | none => .ok (none, .null, w)

/-- Specification-side description of the validator loop's error output:
every variable is visited in list order even after earlier failures, and
each failing compile contributes exactly one error at its position, the
working set, finalized values and warning list evolving only on success.
`compileLoop` is proved to produce exactly these errors. -/
def specPerVariableErrors : List Variable → WorkingSet → FinalSet → List CWarning → List CError
  | [], _, _, _ => []
  | v :: rest, mtbl, fin, w =>
    match v.compile mtbl w fin with
    | .error msg => .compileError msg :: specPerVariableErrors rest mtbl fin w
    | .ok (key, value_processed, w') =>
      let mtbl' := match key with | some k => wsDel mtbl k | none => mtbl
      specPerVariableErrors rest mtbl' (wsSet fin v.name value_processed) w'

/-- A Python value in the aliasing model used for the frame property of
`process_variable_list`: dictionaries that the translated code can mutate
in place are references (`dref`) into a heap of dictionary objects, while
`dict` is kept for freshly built dictionaries the code never mutates after
construction (the per-macro dictionaries). -/
inductive HValue where
  | null
  | bool (b : Bool)
  | int (n : Int)
  | str (s : String)
  | path (s : String)
  | list (xs : List HValue)
  | dict (xs : List (String × HValue))
  | dref (r : Nat)
  | macroObj (module gds spef : HValue)

/-- The heap: cell `r` holds the entries of one dictionary object. -/
abbrev Heap := List (List (String × HValue))

/-- The entries of dictionary object `r` (a dangling reference reads as
empty). -/
def readCell (h : Heap) (r : Nat) : List (String × HValue) :=
  (h.get? r).getD []

/-- Replace the entries of dictionary object `r`. -/
def writeCell (h : Heap) (r : Nat) (c : List (String × HValue)) : Heap :=
  h.set r c

/-- Allocate a fresh dictionary object. -/
def allocCell (h : Heap) (c : List (String × HValue)) : Heap × Nat :=
  (h ++ [c], h.length)

/-- Python truthiness in the aliasing model; a dictionary reference is
truthy when the referenced object is non-empty. -/
def hTruthy (h : Heap) : HValue → Bool
  | .null => false
  | .bool b => b
  | .int n => n != 0
  | .str s => s != ""
  | .path s => s != ""
  | .list xs => !xs.isEmpty
  | .dict xs => !xs.isEmpty
  | .dref r => !(readCell h r).isEmpty
  | .macroObj _ _ _ => true

/-- `int(x)` in the aliasing model (same cases as `pyInt`). -/
def hInt : HValue → IntCoerce
  | .int n => .ok n
  | .bool b => .ok (if b then 1 else 0)
  | .str s =>
    match parseIntPy s with
    | some n => .ok n
    | none => .valueError
  | .path s =>
    match parseIntPy s with
    | some n => .ok n
    | none => .valueError
  | _ => .typeError

/-- Modelled from the spec: the external variable contract in the aliasing
model. `compile` reads the mutable working set's entries and produces a
normalized value or fails; per the spec it does not itself mutate the
working set. -/
structure HVariable where
  name : String
  compile : List (String × HValue) → List CWarning → List (String × HValue) →
    Except String (Option String × HValue × List CWarning)

/-- The state threaded through the aliasing model of
`process_variable_list`: the heap, the reference to the mutable copy, and
the final set, warnings and errors as before. -/
structure HMigState where
  heap : Heap
  mutRef : Nat
  final : List (String × HValue)
  warnings : List CWarning
  errors : List CError

/-- The `DIODE_INSERTION_STRATEGY` block in the aliasing model: all
mutation targets the mutable copy's own cell. -/
def disStepH (st : HMigState) : Except PyError HMigState :=
  match wsGet (readCell st.heap st.mutRef) "DIODE_INSERTION_STRATEGY" with
  | none => .ok st
  | some .null => .ok st
  | some v =>
    let h1 := writeCell st.heap st.mutRef
      (wsDel (readCell st.heap st.mutRef) "DIODE_INSERTION_STRATEGY")
    match hInt v with
    | .typeError => .error .typeError
    | .valueError =>
      .ok { st with heap := h1, errors := st.errors ++ [.disNotAvailable .null] }
    | .ok n =>
      if n = 1 ∨ n = 2 ∨ n = 5 ∨ n > 6 then
        .ok { st with heap := h1, errors := st.errors ++ [.disNotAvailable (.int n)] }
      else
        let f0 := wsSet (wsSet (wsSet st.final "GRT_REPAIR_ANTENNAS" (.bool false))
          "RUN_HEURISTIC_DIODE_INSERTION" (.bool false)) "DIODE_ON_PORTS" (.str "none")
        let f1 := if n = 3 ∨ n = 6 then wsSet f0 "GRT_REPAIR_ANTENNAS" (.bool true) else f0
        let f2 :=
          if n = 5 ∨ n = 6 then
            wsSet (wsSet f1 "RUN_HEURISTIC_DIODE_INSERTION" (.bool true)) "DIODE_ON_PORTS" (.str "in")
          else f1
        .ok { st with
                heap := h1
                final := f2
                warnings := st.warnings ++ [.disDeprecated] }

/-- The per-macro dictionary in the aliasing model (a fresh object the
code never mutates afterwards, kept immediate). -/
def macroDictOfH (module mn nom mx : HValue) : HValue :=
  .dict [("module", module), ("gds", .list [.str "/dev/null"]),
         ("spef", .dict [("min_*", .list [mn]), ("nom_*", .list [nom]),
                         ("max_*", .list [mx])])]

/-- The quadruple loop in the aliasing model:
`mutable["MACROS"][module] = macro_dict` writes through the reference held
under `"MACROS"` — which may be the very dictionary object the receiver
holds. Module keys are modelled as strings; a non-string module or a
non-reference `MACROS` value raises `TypeError`. -/
def insertMacrosH : List HValue → Heap → Nat → Except PyError Heap
  | [], h, _ => .ok h
  | module :: mn :: nom :: mx :: rest, h, mutRef =>
    match module with
    | .str s =>
      (match wsGet (readCell h mutRef) "MACROS" with
       | some (.dref r) =>
         insertMacrosH rest (writeCell h r (wsSet (readCell h r) s (macroDictOfH module mn nom mx))) mutRef
       | _ => .error .typeError)
    | _ => .error .typeError
  | _ :: _, _, _ => .error .typeError

/-- The heap after `mutable["MACROS"] = mutable.get("MACROS") or {}` and
`del mutable["EXTRA_SPEFS"]` in the aliasing model: a truthy pre-existing
`MACROS` value — in particular a shared dictionary reference — is kept,
and a fresh empty dictionary is allocated only when the value is falsy or
absent. -/
def spefSetup (st : HMigState) : Heap :=
  let step : Heap × HValue :=
    match wsGet (readCell st.heap st.mutRef) "MACROS" with
    | some mv =>
      if hTruthy st.heap mv then (st.heap, mv)
      else
        let a := allocCell st.heap []
        (a.1, .dref a.2)
    | none =>
      let a := allocCell st.heap []
      (a.1, .dref a.2)
  let h1 := writeCell step.1 st.mutRef (wsSet (readCell step.1 st.mutRef) "MACROS" step.2)
  writeCell h1 st.mutRef (wsDel (readCell h1 st.mutRef) "EXTRA_SPEFS")

/-- The `EXTRA_SPEFS` block in the aliasing model. -/
def spefStepH (st : HMigState) : Except PyError (HMigState × Bool) :=
  match wsGet (readCell st.heap st.mutRef) "EXTRA_SPEFS" with
  | none => .ok (st, false)
  | some .null => .ok (st, false)
  | some v =>
    let h2 := spefSetup st
    let lst : HValue :=
      match v with
      | .str s => .list ((splitSpaceChars s.data).map (fun cs => HValue.str (String.mk cs)))
      | other => other
    match lst with
    | .list xs =>
      if xs.length % 4 ≠ 0 then
        .ok ({ st with heap := h2, errors := st.errors ++ [.extraSpefsNotDivisible] }, false)
      else
        match insertMacrosH xs h2 st.mutRef with
        | .ok h3 =>
          .ok ({ st with
                  heap := h3
                  warnings := st.warnings ++ [.extraSpefsDeprecated] }, true)
        | .error e => .error e
    | _ =>
      .ok ({ st with heap := h2, errors := st.errors ++ [.extraSpefsInvalidType .null] }, false)

/-- The compilation loop in the aliasing model: deletion of a consumed key
writes the mutable copy's own cell. -/
def compileLoopH : List HVariable → Heap → Nat → List (String × HValue) →
    List CWarning → List CError → Heap × List (String × HValue) × List CWarning × List CError
  | [], h, _, fin, w, e => (h, fin, w, e)
  | v :: rest, h, mutRef, fin, w, e =>
    match v.compile (readCell h mutRef) w fin with
    | .ok (key, value_processed, w') =>
      let h' :=
        match key with
        | some k => writeCell h mutRef (wsDel (readCell h mutRef) k)
        | none => h
      compileLoopH rest h' mutRef (wsSet fin v.name value_processed) w' e
    | .error msg => compileLoopH rest h mutRef fin w (e ++ [.compileError msg])

/-- `macro.gds == "/dev/null"` in the aliasing model. -/
def isDevNullH (v : HValue) : Bool :=
  match v with
  | .str s => s == "/dev/null"
  | .path s => s == "/dev/null"
  | _ => false

/-- The placeholder normalization in the aliasing model (the final set is
a fresh mapping, so this involves no shared state). -/
def normalizeMacrosH (fin : List (String × HValue)) : Except PyError (List (String × HValue)) :=
  match wsGet fin "MACROS" with
  | none => .error (.keyError "MACROS")
  | some (.dict d) => do
    let entries ← d.mapM (fun kv =>
      match kv.2 with
      | .macroObj mo g s =>
        .ok (kv.1, if isDevNullH g then HValue.macroObj mo (.path "") s else HValue.macroObj mo g s)
      | _ => .error PyError.attributeError)
    .ok (wsSet fin "MACROS" (.dict entries))
  | some _ => .error .typeError

/-- `Config.process_variable_list` in the aliasing model: `self.copy()`
allocates a fresh top-level dictionary sharing every nested reference
(`Config.copy` is a shallow copy), and all subsequent top-level mutation
targets the copy's cell. Returns the heap after the call together with
the final set, warnings and errors. -/
def processVariableListH (h : Heap) (selfRef : Nat) (variableList : List HVariable)
    (removed : List (String × String)) :
    Except PyError (Heap × List (String × HValue) × List CWarning × List CError) := do
  let a := allocCell h (readCell h selfRef)
  let st0 : HMigState := ⟨a.1, a.2, [], [], []⟩
  let st1 ← disStepH st0
  let (st2, translated) ← spefStepH st1
  let (h3, fin, w, e) := compileLoopH variableList st2.heap st2.mutRef st2.final st2.warnings st2.errors
  let w2 := w ++ leftoverWarnings (pySorted ((readCell h3 st2.mutRef).map Prod.fst)) removed
  let fin2 ← if translated then normalizeMacrosH fin else .ok fin
  .ok (h3, fin2, w2, e)

/-- The consecutive `(module, min, nominal, max)` quadruples of a flat
legacy timing-annotation list (a trailing fragment shorter than four is
dropped; the migration only runs on lists whose length is divisible by
four). -/
def quadruples : List Value → List (Value × Value × Value × Value)
  | module :: mn :: nom :: mx :: rest => (module, mn, nom, mx) :: quadruples rest
  | _ => []

/-- Whether `s` ends with `pat`: the suffix reading of the unknown-key
exemption, used to state what the code does *not* implement (the code
tests substring containment). -/
def strEndsWith (s pat : String) : Bool := pat.data.reverse.isPrefixOf s.data.reverse

/-! ## Basic lemmas about the ordered-mapping operations -/

theorem wsGet_del_ne {A : Type} (ws : List (String × A)) (k k' : String) (h : k' ≠ k) :
    wsGet (wsDel ws k) k' = wsGet ws k' := by
  induction ws with
  | nil => rfl
  | cons kv rest ih =>
    simp only [wsDel]
    by_cases hk : kv.1 = k
    · rw [if_pos hk]
      have hne : kv.1 ≠ k' := by rw [hk]; exact fun e => h e.symm
      simp [wsGet, hne]
    · rw [if_neg hk]
      by_cases hk' : kv.1 = k'
      · simp [wsGet, hk']
      · simp [wsGet, hk', ih]

theorem wsGet_set_self {A : Type} (ws : List (String × A)) (k : String) (v : A) :
    wsGet (wsSet ws k v) k = some v := by
  induction ws with
  | nil => simp [wsSet, wsGet]
  | cons kv rest ih =>
    simp only [wsSet]
    by_cases hk : kv.1 = k
    · rw [if_pos hk]; simp [wsGet, hk]
    · rw [if_neg hk]; simp [wsGet, hk, ih]

theorem wsGet_set_ne {A : Type} (ws : List (String × A)) (k k' : String) (v : A) (h : k' ≠ k) :
    wsGet (wsSet ws k v) k' = wsGet ws k' := by
  induction ws with
  | nil => simp [wsSet, wsGet, Ne.symm h]
  | cons kv rest ih =>
    simp only [wsSet]
    by_cases hk : kv.1 = k
    · rw [if_pos hk]
      have hne : kv.1 ≠ k' := by rw [hk]; exact fun e => h e.symm
      simp [wsGet, hne]
    · rw [if_neg hk]
      by_cases hk' : kv.1 = k'
      · simp [wsGet, hk']
      · simp [wsGet, hk', ih]

/-! ## Lemmas about the leftover-key pass -/

theorem leftover_shape (ks : List String) (rm : List (String × String)) (w : CWarning)
    (hw : w ∈ leftoverWarnings ks rm) :
    (∃ k note, w = CWarning.removedKey k note) ∨ ∃ k, w = CWarning.unknownKey k := by
  induction ks with
  | nil => cases hw
  | cons key rest ih =>
    simp only [leftoverWarnings, leftoverWarning1, List.mem_append] at hw
    rcases hw with hw | hw
    · split at hw
      · cases hw
      · split at hw
        · exact Or.inl ⟨key, _, List.mem_singleton.mp hw⟩
        · split at hw
          · exact Or.inr ⟨key, List.mem_singleton.mp hw⟩
          · cases hw
    · exact ih hw

theorem leftover_countP_dis (ks : List String) (rm : List (String × String)) :
    (leftoverWarnings ks rm).countP (· = CWarning.disDeprecated) = 0 := by
  rw [List.countP_eq_zero]
  intro a ha
  rcases leftover_shape ks rm a ha with ⟨k, note, rfl⟩ | ⟨k, rfl⟩ <;> simp

theorem leftover_countP_spef (ks : List String) (rm : List (String × String)) :
    (leftoverWarnings ks rm).countP (· = CWarning.extraSpefsDeprecated) = 0 := by
  rw [List.countP_eq_zero]
  intro a ha
  rcases leftover_shape ks rm a ha with ⟨k, note, rfl⟩ | ⟨k, rfl⟩ <;> simp

/-! ## C4: legacy diode-insertion strategy 5 -/

/-- C4 counterexample: the claim states that a working set whose
`DIODE_INSERTION_STRATEGY` is `5` migrates with no error, producing
heuristic diode insertion on ports `"in"`. On the code, `5` is in the
rejected set `[1, 2, 5]`: the call records exactly one
"not available" error, the final set is empty (none of the three modern
keys is produced), and no deprecation warning is emitted. -/
theorem dis_five_rejected_cex :
    process_variable_list [("DIODE_INSERTION_STRATEGY", .int 5)] [] [] =
      .ok ([], [], [.disNotAvailable (.int 5)]) := rfl

/-- C4 amended: for every working set whose
`DIODE_INSERTION_STRATEGY` is `5` (and with no `EXTRA_SPEFS` entry),
validation against an empty variable list records exactly one
"not available" error, produces none of the three modern keys, and emits
no deprecation warning: the `dis in [5, 6]` branch of the migration is
unreachable for `5`. -/
theorem dis_five_rejected (ws : WorkingSet)
    (h1 : wsGet ws "DIODE_INSERTION_STRATEGY" = some (.int 5))
    (h2 : wsGet ws "EXTRA_SPEFS" = none) :
    ∃ fin w, process_variable_list ws [] [] = .ok (fin, w, [.disNotAvailable (.int 5)]) ∧
      wsGet fin "GRT_REPAIR_ANTENNAS" = none ∧
      wsGet fin "RUN_HEURISTIC_DIODE_INSERTION" = none ∧
      wsGet fin "DIODE_ON_PORTS" = none ∧
      w.countP (· = CWarning.disDeprecated) = 0 := by
  have hes : wsGet (wsDel ws "DIODE_INSERTION_STRATEGY") "EXTRA_SPEFS" = none := by
    rw [wsGet_del_ne _ _ _ (by decide)]; exact h2
  refine ⟨[], leftoverWarnings (pySorted ((wsDel ws "DIODE_INSERTION_STRATEGY").map Prod.fst)) [],
    ?_, rfl, rfl, rfl, leftover_countP_dis _ _⟩
  simp [process_variable_list, disStep, h1, spefStep, hes, compileLoop, bind, Except.bind, pyInt]

/-- Witness for `dis_five_rejected` at a concrete working set. -/
theorem dis_five_rejected_witness :
    ∃ fin w,
      process_variable_list [("DIODE_INSERTION_STRATEGY", .int 5), ("DESIGN_NAME", .str "d")] [] [] =
        .ok (fin, w, [.disNotAvailable (.int 5)]) ∧
      wsGet fin "GRT_REPAIR_ANTENNAS" = none ∧
      wsGet fin "RUN_HEURISTIC_DIODE_INSERTION" = none ∧
      wsGet fin "DIODE_ON_PORTS" = none ∧
      w.countP (· = CWarning.disDeprecated) = 0 :=
  dis_five_rejected _ rfl rfl

/-! ## Characterizations of the migration steps -/

theorem disStep_ok_int (st : MigState) (v : Value) (n : Int)
    (h1 : wsGet st.mutableCfg "DIODE_INSERTION_STRATEGY" = some v)
    (hn : pyInt v = .ok n) :
    disStep st =
      (if n = 1 ∨ n = 2 ∨ n = 5 ∨ n > 6 then
        .ok { st with
                mutableCfg := wsDel st.mutableCfg "DIODE_INSERTION_STRATEGY"
                errors := st.errors ++ [.disNotAvailable (.int n)] }
      else
        .ok { st with
                mutableCfg := wsDel st.mutableCfg "DIODE_INSERTION_STRATEGY"
                final := disFinalUpdate n st.final
                warnings := st.warnings ++ [.disDeprecated] }) := by
  cases v with
  | null => simp [pyInt] at hn
  | bool b => simp only [pyInt, IntCoerce.ok.injEq] at hn; simp [disStep, h1, pyInt, hn]
  | int m => simp only [pyInt, IntCoerce.ok.injEq] at hn; simp [disStep, h1, pyInt, hn]
  | str s =>
    simp only [pyInt] at hn
    rcases hp : parseIntPy s with _ | m
    · rw [hp] at hn; cases hn
    · rw [hp] at hn
      cases hn
      simp [disStep, h1, pyInt, hp]
  | path s =>
    simp only [pyInt] at hn
    rcases hp : parseIntPy s with _ | m
    · rw [hp] at hn; cases hn
    · rw [hp] at hn
      cases hn
      simp [disStep, h1, pyInt, hp]
  | list xs => simp [pyInt] at hn
  | dict xs => simp [pyInt] at hn
  | macroObj a b c => simp [pyInt] at hn

theorem disStep_valueError (st : MigState) (v : Value)
    (h1 : wsGet st.mutableCfg "DIODE_INSERTION_STRATEGY" = some v)
    (hv : pyInt v = .valueError) :
    disStep st =
      .ok { st with
              mutableCfg := wsDel st.mutableCfg "DIODE_INSERTION_STRATEGY"
              errors := st.errors ++ [.disNotAvailable v] } := by
  cases v with
  | null => simp [pyInt] at hv
  | bool b => simp [pyInt] at hv
  | int m => simp [pyInt] at hv
  | str s =>
    simp only [pyInt] at hv
    rcases hp : parseIntPy s with _ | m
    · simp [disStep, h1, pyInt, hp]
    · rw [hp] at hv; cases hv
  | path s =>
    simp only [pyInt] at hv
    rcases hp : parseIntPy s with _ | m
    · simp [disStep, h1, pyInt, hp]
    · rw [hp] at hv; cases hv
  | list xs => simp [pyInt] at hv
  | dict xs => simp [pyInt] at hv
  | macroObj a b c => simp [pyInt] at hv

theorem spefStep_skip (st : MigState)
    (h : wsGet st.mutableCfg "EXTRA_SPEFS" = none) :
    spefStep st = .ok (st, false) := by
  simp [spefStep, h]

theorem disFinalUpdate_nil (n : Int) :
    disFinalUpdate n [] =
      [("GRT_REPAIR_ANTENNAS", .bool (decide (n = 3 ∨ n = 6))),
       ("RUN_HEURISTIC_DIODE_INSERTION", .bool (decide (n = 5 ∨ n = 6))),
       ("DIODE_ON_PORTS", .str (if n = 5 ∨ n = 6 then "in" else "none"))] := by
  by_cases h36 : n = 3 ∨ n = 6 <;> by_cases h56 : n = 5 ∨ n = 6 <;>
    simp [disFinalUpdate, wsSet, h36, h56]

/-! ## C1: the legacy diode-insertion-strategy migration -/

/-- C1 counterexample: the claim quantifies over every working set in
which the legacy key is present and states that a value that is not an
integer after coercion records exactly one error. A present key with the
value `None` is skipped by the `is not None` guard: the call records no
error and no deprecation warning at all — the key is left in the working
set and instead produces an unknown-key warning. -/
theorem dis_null_cex :
    process_variable_list [("DIODE_INSERTION_STRATEGY", .null)] [] [] =
      .ok ([], [.unknownKey "DIODE_INSERTION_STRATEGY"], []) := rfl

/-- C1 amended: for every working set whose `DIODE_INSERTION_STRATEGY`
entry holds a non-null scalar (integer, boolean, or all-ASCII string)
value — so that `int()` coercion either succeeds or raises the caught
`ValueError`, and the coercion model is exact — and with no `EXTRA_SPEFS`
entry: a string that fails integer parsing, or a coerced value in
`{1, 2, 5}` or greater than `6`, records exactly one "not available"
error, sets none of the three modern keys, and emits no deprecation
warning; any other coerced value records no error, emits exactly one
deprecation warning, and produces antenna-repair true exactly for
`{3, 6}`, heuristic diode insertion true exactly for `{5, 6}`, and
on-ports `"in"` for `{5, 6}` and `"none"` otherwise. (A `None` value is
skipped entirely, and a list or mapping value raises an uncaught
`TypeError`.) -/
theorem dis_migration_cases (ws : WorkingSet) (v : Value)
    (h1 : wsGet ws "DIODE_INSERTION_STRATEGY" = some v)
    (h2 : wsGet ws "EXTRA_SPEFS" = none)
    (_hascii : ∀ s, v = .str s ∨ v = .path s → asciiOnly s = true) :
    (pyInt v = .valueError →
      ∃ w, process_variable_list ws [] [] = .ok ([], w, [.disNotAvailable v]) ∧
        w.countP (· = CWarning.disDeprecated) = 0) ∧
    (∀ n : Int, pyInt v = .ok n → (n = 1 ∨ n = 2 ∨ n = 5 ∨ n > 6) →
      ∃ w, process_variable_list ws [] [] = .ok ([], w, [.disNotAvailable (.int n)]) ∧
        w.countP (· = CWarning.disDeprecated) = 0) ∧
    (∀ n : Int, pyInt v = .ok n → ¬(n = 1 ∨ n = 2 ∨ n = 5 ∨ n > 6) →
      ∃ w, process_variable_list ws [] [] =
          .ok ([("GRT_REPAIR_ANTENNAS", .bool (decide (n = 3 ∨ n = 6))),
                ("RUN_HEURISTIC_DIODE_INSERTION", .bool (decide (n = 5 ∨ n = 6))),
                ("DIODE_ON_PORTS", .str (if n = 5 ∨ n = 6 then "in" else "none"))], w, []) ∧
        w.countP (· = CWarning.disDeprecated) = 1) := by
  have hdel : wsGet (wsDel ws "DIODE_INSERTION_STRATEGY") "EXTRA_SPEFS" = none := by
    rw [wsGet_del_ne _ _ _ (by decide)]; exact h2
  refine ⟨?_, ?_, ?_⟩
  · intro hv
    refine ⟨leftoverWarnings (pySorted ((wsDel ws "DIODE_INSERTION_STRATEGY").map Prod.fst)) [],
      ?_, leftover_countP_dis _ _⟩
    simp only [process_variable_list]
    rw [disStep_valueError ⟨ws, [], [], []⟩ v h1 hv]
    simp only [bind, Except.bind]
    rw [spefStep_skip _ hdel]
    simp [compileLoop]
  · intro n hn hbad
    refine ⟨leftoverWarnings (pySorted ((wsDel ws "DIODE_INSERTION_STRATEGY").map Prod.fst)) [],
      ?_, leftover_countP_dis _ _⟩
    simp only [process_variable_list]
    rw [disStep_ok_int ⟨ws, [], [], []⟩ v n h1 hn, if_pos hbad]
    simp only [bind, Except.bind]
    rw [spefStep_skip _ hdel]
    simp [compileLoop]
  · intro n hn hok
    refine ⟨[CWarning.disDeprecated] ++
      leftoverWarnings (pySorted ((wsDel ws "DIODE_INSERTION_STRATEGY").map Prod.fst)) [], ?_, ?_⟩
    · simp only [process_variable_list]
      rw [disStep_ok_int ⟨ws, [], [], []⟩ v n h1 hn, if_neg hok]
      simp only [bind, Except.bind]
      rw [spefStep_skip _ hdel]
      simp [compileLoop, disFinalUpdate_nil]
    · simp [List.countP_cons, leftover_countP_dis]

/-- Witness for `dis_migration_cases` at a concrete working set with
value `6`, exercising the accepted branch. -/
theorem dis_migration_cases_witness :
    ∃ w, process_variable_list [("DIODE_INSERTION_STRATEGY", .int 6)] [] [] =
        .ok ([("GRT_REPAIR_ANTENNAS", .bool (decide ((6 : Int) = 3 ∨ (6 : Int) = 6))),
              ("RUN_HEURISTIC_DIODE_INSERTION", .bool (decide ((6 : Int) = 5 ∨ (6 : Int) = 6))),
              ("DIODE_ON_PORTS", .str (if (6 : Int) = 5 ∨ (6 : Int) = 6 then "in" else "none"))], w, []) ∧
      w.countP (· = CWarning.disDeprecated) = 1 :=
  (dis_migration_cases [("DIODE_INSERTION_STRATEGY", .int 6)] (.int 6) rfl rfl
    (fun s hs => by rcases hs with h | h <;> cases h)).2.2 6 rfl (by decide)

theorem disStep_skip (st : MigState)
    (h : wsGet st.mutableCfg "DIODE_INSERTION_STRATEGY" = none) :
    disStep st = .ok st := by
  simp [disStep, h]

theorem spefStep_list_badlen (st : MigState) (xs : List Value)
    (h : wsGet st.mutableCfg "EXTRA_SPEFS" = some (.list xs))
    (hlen : xs.length % 4 ≠ 0) :
    spefStep st = .ok ({ st with
        mutableCfg := wsDel (wsSet st.mutableCfg "MACROS" (spefMacros0 st.mutableCfg)) "EXTRA_SPEFS"
        errors := st.errors ++ [.extraSpefsNotDivisible] }, false) := by
  simp [spefStep, h, hlen]

/-! ## Keys, sorting and counting lemmas -/

theorem countP_insertSorted (s : String) (l : List String) (p : String → Bool) :
    (insertSorted s l).countP p = (if p s then 1 else 0) + l.countP p := by
  induction l with
  | nil => simp [insertSorted, List.countP_cons]
  | cons t rest ih =>
    by_cases hle : leChars s.data t.data
    · simp [insertSorted, hle, List.countP_cons]; omega
    · simp [insertSorted, hle, List.countP_cons, ih]; omega

theorem countP_pySorted (l : List String) (p : String → Bool) :
    (pySorted l).countP p = l.countP p := by
  induction l with
  | nil => rfl
  | cons s rest ih =>
    simp only [pySorted, List.foldr_cons] at *
    rw [countP_insertSorted, ih, List.countP_cons]
    omega

theorem leftoverWarning1_countP_ne (key k : String) (rm : List (String × String))
    (hkey : key ≠ k) :
    (leftoverWarning1 key rm).countP (· = CWarning.unknownKey k) = 0 := by
  simp only [leftoverWarning1]
  split
  · rfl
  · split
    · simp
    · split
      · simp [hkey]
      · rfl

theorem leftover_countP_unknown_if (ks : List String) (rm : List (String × String)) (k : String)
    (hk : k ∉ specialKeysValues) (hrm : List.lookup k rm = none) :
    (leftoverWarnings ks rm).countP (· = CWarning.unknownKey k) =
      if strContains k "_OPT" = true ∨ k = "//" then 0 else ks.countP (· = k) := by
  induction ks with
  | nil =>
    simp only [leftoverWarnings, List.countP_nil]
    split <;> rfl
  | cons key rest ih =>
    simp only [leftoverWarnings, List.countP_append, List.countP_cons, ih]
    by_cases hkey : key = k
    · subst hkey
      by_cases hex : strContains key "_OPT" = true ∨ key = "//"
      · have hbr : (leftoverWarning1 key rm).countP (· = CWarning.unknownKey key) = 0 := by
          simp only [leftoverWarning1, if_neg hk, hrm]
          rcases hex with hex | hex
          · simp [hex]
          · simp [hex]
        simp [hbr, hex]
      · push_neg at hex
        have hbr : (leftoverWarning1 key rm).countP (· = CWarning.unknownKey key) = 1 := by
          simp only [leftoverWarning1, if_neg hk, hrm]
          simp [hex.1, hex.2]
        have hcond : ¬(strContains key "_OPT" = true ∨ key = "//") := by
          rw [not_or]; exact ⟨hex.1, hex.2⟩
        rw [hbr]
        simp [hcond]
        omega
    · rw [leftoverWarning1_countP_ne key k rm hkey]
      split <;> simp [hkey]

theorem countP_eq_one_of_nodup_mem (l : List String) (k : String) (hnd : l.Nodup) (hm : k ∈ l) :
    l.countP (· = k) = 1 := by
  induction l with
  | nil => cases hm
  | cons a rest ih =>
    simp only [List.nodup_cons] at hnd
    rcases List.mem_cons.mp hm with rfl | hm'
    · rw [List.countP_cons]
      have hz : rest.countP (· = k) = 0 := List.countP_eq_zero.mpr (fun x hx => by
        simp only [decide_eq_true_eq]
        rintro rfl
        exact hnd.1 hx)
      simp [hz]
    · rw [List.countP_cons, ih hnd.2 hm']
      have hne : ¬(a = k) := fun e => hnd.1 (e ▸ hm')
      simp [hne]

theorem mem_keys_of_wsGet {A : Type} (ws : List (String × A)) (k : String) (v : A)
    (h : wsGet ws k = some v) : k ∈ ws.map Prod.fst := by
  induction ws with
  | nil => cases h
  | cons kv rest ih =>
    simp only [wsGet] at h
    by_cases hk : kv.1 = k
    · exact List.mem_cons.mpr (Or.inl hk.symm)
    · rw [if_neg hk] at h
      exact List.mem_cons.mpr (Or.inr (ih h))

/-! ## C5: the unknown-key pass -/

/-- C5 counterexample: the claim exempts only keys *ending* in the
reserved `"_OPT"` marker from the unknown-key warning. The code tests
substring containment (`"_OPT" not in key`): the leftover key
`"A_OPTION"`, which contains but does not end with the marker, is
silently ignored — no warning at all is produced. -/
theorem unknown_key_opt_cex :
    process_variable_list [("A_OPTION", .bool true)] [] [] = .ok ([], [], []) ∧
      strEndsWith "A_OPTION" "_OPT" = false ∧ strContains "A_OPTION" "_OPT" = true :=
  ⟨rfl, rfl, rfl⟩

/-- C5 amended: after all variables are compiled, a leftover key that is
not special and not in the removed table produces exactly one
unknown-key warning and does not appear in the final configuration —
except keys *containing* the reserved `"_OPT"` marker anywhere, and the
comment sentinel `"//"`, which are silently ignored. Stated over working
sets with duplicate-free keys and no legacy keys, against an empty
variable list. -/
theorem unknown_key_pass (ws : WorkingSet) (hnd : (ws.map Prod.fst).Nodup)
    (k : String) (v : Value) (rm : List (String × String))
    (hmem : wsGet ws k = some v)
    (hdis : wsGet ws "DIODE_INSERTION_STRATEGY" = none)
    (hes : wsGet ws "EXTRA_SPEFS" = none)
    (hk : k ∉ specialKeysValues) (hrm : List.lookup k rm = none) :
    ∃ w, process_variable_list ws [] rm = .ok ([], w, []) ∧
      w.countP (· = CWarning.unknownKey k) =
        (if strContains k "_OPT" = true ∨ k = "//" then 0 else 1) := by
  refine ⟨leftoverWarnings (pySorted (ws.map Prod.fst)) rm, ?_, ?_⟩
  · simp only [process_variable_list]
    rw [disStep_skip _ hdis]
    simp only [bind, Except.bind]
    rw [spefStep_skip _ hes]
    simp [compileLoop]
  · rw [leftover_countP_unknown_if _ _ _ hk hrm, countP_pySorted,
      countP_eq_one_of_nodup_mem _ _ hnd (mem_keys_of_wsGet ws k v hmem)]

/-- Witness for `unknown_key_pass` at a concrete working set with the
leftover key `"FOO"`, which produces exactly one unknown-key warning. -/
theorem unknown_key_pass_witness :
    ∃ w, process_variable_list [("FOO", .int 1)] [] [] = .ok ([], w, []) ∧
      w.countP (· = CWarning.unknownKey "FOO") =
        (if strContains "FOO" "_OPT" = true ∨ "FOO" = "//" then 0 else 1) :=
  unknown_key_pass [("FOO", .int 1)] (by decide) "FOO" (.int 1) [] rfl rfl rfl (by decide) rfl

/-! ## Lemmas for the EXTRA_SPEFS quadruple migration -/

theorem wsSet_self_of_get {A : Type} (ws : List (String × A)) (k : String) (v : A)
    (h : wsGet ws k = some v) : wsSet ws k v = ws := by
  induction ws with
  | nil => cases h
  | cons kv rest ih =>
    simp only [wsGet] at h
    by_cases hk : kv.1 = k
    · rw [if_pos hk] at h
      cases h
      obtain ⟨k1, v1⟩ := kv
      have hk' : k1 = k := hk
      subst hk'
      simp [wsSet]
    · rw [if_neg hk] at h
      simp [wsSet, hk, ih h]

theorem wsSet_wsSet {A : Type} (ws : List (String × A)) (k : String) (a b : A) :
    wsSet (wsSet ws k a) k b = wsSet ws k b := by
  induction ws with
  | nil => simp [wsSet]
  | cons kv rest ih =>
    by_cases hk : kv.1 = k
    · simp [wsSet, hk]
    · simp [wsSet, hk, ih]

theorem dictSet_append_of_fresh (d : List (Value × Value)) (k v : Value)
    (h : ∀ kv ∈ d, pyEq kv.1 k = false) : dictSet d k v = d ++ [(k, v)] := by
  induction d with
  | nil => rfl
  | cons kv rest ih =>
    have hk : pyEq kv.1 k = false := h kv (List.mem_cons_self kv rest)
    simp only [dictSet, hk, Bool.false_eq_true, if_false, List.cons_append]
    rw [ih (fun kv' hm => h kv' (List.mem_cons_of_mem kv hm))]

theorem insertMacros_ok :
    ∀ (xs : List Value) (m2 : WorkingSet) (d0 : List (Value × Value)),
    wsGet m2 "MACROS" = some (.dict d0) →
    xs.length % 4 = 0 →
    (∀ q ∈ quadruples xs, hashable q.1 = true) →
    (∀ q ∈ quadruples xs, ∀ kv ∈ d0, pyEq kv.1 q.1 = false) →
    (quadruples xs).Pairwise (fun a b => pyEq a.1 b.1 = false) →
    insertMacros xs m2 = .ok (wsSet m2 "MACROS"
      (.dict (d0 ++ (quadruples xs).map (fun q => (q.1, macroDictOf q.1 q.2.1 q.2.2.1 q.2.2.2)))))
  | [], m2, d0, hd, _, _, _, _ => by
    simp only [insertMacros, quadruples, List.map_nil, List.append_nil]
    rw [wsSet_self_of_get m2 "MACROS" (.dict d0) hd]
  | [a], m2, d0, hd, hlen, _, _, _ => by simp at hlen
  | [a, b], m2, d0, hd, hlen, _, _, _ => by simp at hlen
  | [a, b, c], m2, d0, hd, hlen, _, _, _ => by simp at hlen
  | module :: mn :: nom :: mx :: rest, m2, d0, hd, hlen, hh, hfresh, hdist => by
    have hq : quadruples (module :: mn :: nom :: mx :: rest) =
        (module, mn, nom, mx) :: quadruples rest := rfl
    rw [hq] at hh hfresh hdist
    have hmod : hashable module = true := hh _ (List.mem_cons_self _ _)
    have hfres0 : ∀ kv ∈ d0, pyEq kv.1 module = false :=
      fun kv hm => hfresh _ (List.mem_cons_self _ _) kv hm
    have hpair := List.pairwise_cons.mp hdist
    simp only [insertMacros, hmod, if_pos, hd]
    rw [dictSet_append_of_fresh d0 module (macroDictOf module mn nom mx) hfres0]
    have hlen' : rest.length % 4 = 0 := by
      simp only [List.length_cons] at hlen
      omega
    have hd' : wsGet (wsSet m2 "MACROS"
        (.dict (d0 ++ [(module, macroDictOf module mn nom mx)]))) "MACROS" =
        some (.dict (d0 ++ [(module, macroDictOf module mn nom mx)])) :=
      wsGet_set_self _ _ _
    have hh' : ∀ q ∈ quadruples rest, hashable q.1 = true :=
      fun q hm => hh q (List.mem_cons_of_mem _ hm)
    have hfresh' : ∀ q ∈ quadruples rest,
        ∀ kv ∈ d0 ++ [(module, macroDictOf module mn nom mx)], pyEq kv.1 q.1 = false := by
      intro q hm kv hkv
      rcases List.mem_append.mp hkv with hkv | hkv
      · exact hfresh q (List.mem_cons_of_mem _ hm) kv hkv
      · rcases List.mem_singleton.mp hkv with rfl
        exact hpair.1 q hm
    rw [insertMacros_ok rest _ _ hd' hlen' hh' hfresh' hpair.2]
    rw [wsSet_wsSet]
    simp [hq]

theorem spefStep_list_ok (st : MigState) (xs : List Value) (mtbl' : WorkingSet)
    (h : wsGet st.mutableCfg "EXTRA_SPEFS" = some (.list xs))
    (hlen : xs.length % 4 = 0)
    (hins : insertMacros xs
      (wsDel (wsSet st.mutableCfg "MACROS" (spefMacros0 st.mutableCfg)) "EXTRA_SPEFS") = .ok mtbl') :
    spefStep st = .ok ({ st with
        mutableCfg := mtbl'
        warnings := st.warnings ++ [.extraSpefsDeprecated] }, true) := by
  simp [spefStep, h, hlen, hins]

theorem mapM_ok_of_forall {α β : Type} (l : List α) (f : α → Except PyError β) (g : α → β)
    (h : ∀ x ∈ l, f x = .ok (g x)) : l.mapM f = .ok (l.map g) := by
  induction l with
  | nil => rfl
  | cons a rest ih =>
    rw [List.mapM_cons, h a (List.mem_cons_self a rest),
      ih (fun x hx => h x (List.mem_cons_of_mem a hx))]
    rfl

theorem normalizeMacros_dict (fin : FinalSet) (d entries : List (Value × Value))
    (hget : wsGet fin "MACROS" = some (.dict d))
    (hmapM : d.mapM (fun kv => (normalizeMacro1 kv.2).map (fun v => (kv.1, v))) = .ok entries) :
    normalizeMacros fin = .ok (wsSet fin "MACROS" (.dict entries)) := by
  simp only [normalizeMacros, hget]
  rw [hmapM]
  rfl

theorem compileMacroRecord_macroDictOf (m a b c : Value) :
    compileMacroRecord (macroDictOf m a b c) =
      .macroObj m (.str "/dev/null")
        (.dict [(.str "min_*", .list [a]), (.str "nom_*", .list [b]), (.str "max_*", .list [c])]) := rfl

theorem quadruples_length :
    ∀ xs : List Value, xs.length % 4 = 0 → (quadruples xs).length = xs.length / 4
  | [], _ => rfl
  | [a], h => by simp at h
  | [a, b], h => by simp at h
  | [a, b, c], h => by simp at h
  | a :: b :: c :: d :: rest, h => by
    have h' : rest.length % 4 = 0 := by
      simp only [List.length_cons] at h
      omega
    have := quadruples_length rest h'
    simp only [quadruples, List.length_cons, this]
    omega

/-! ## C3: the flat timing-annotation list migration -/

/-- C3 counterexample: the claim quantifies over every working set
containing the legacy flat list and states that (for a length divisible by
four) each quadruple becomes a macro record and one warning is emitted.
When the working set also holds a truthy *string* `MACROS` value, the
code keeps that value (`mutable.get("MACROS") or {}`) and then the item
assignment `mutable["MACROS"][module] = macro_dict` — a string does not
support item assignment — raises an uncaught `TypeError`: no record, no
warning, no recorded error. -/
theorem spef_macros_truthy_cex :
    process_variable_list
      [("EXTRA_SPEFS", .list [.str "m", .str "a", .str "b", .str "c"]), ("MACROS", .str "x")]
      [macrosVariable] [] = .error .typeError := rfl

/-- C3 amended: for every working set whose `EXTRA_SPEFS` holds a list and
whose pre-existing `MACROS` entry is absent or falsy — so
`mutable.get("MACROS") or {}` replaces it with a fresh empty mapping (a
truthy value is kept instead, the quadruple writes then following Python
item-assignment semantics on it: a mapping receives the new records, a
string raises an uncaught `TypeError`): a length not divisible by four
records exactly one error and creates no macro record (the `MACROS` entry
compiles to an empty mapping); otherwise — provided the module entries
are hashable and pairwise distinct — exactly one deprecation warning is
emitted and each quadruple `(module, min, nominal, max)` becomes one
per-module record under `MACROS` whose placeholder geometry reference is
normalized to an empty path after compilation, giving `length / 4`
records (two for a list of length 8). -/
theorem extra_spefs_migration (ws : WorkingSet) (xs : List Value)
    (hes : wsGet ws "EXTRA_SPEFS" = some (.list xs))
    (hdis : wsGet ws "DIODE_INSERTION_STRATEGY" = none)
    (hmac : macrosAbsentOrFalsy ws) :
    (xs.length % 4 ≠ 0 →
      ∃ w, process_variable_list ws [macrosVariable] [] =
          .ok ([("MACROS", .dict [])], w, [.extraSpefsNotDivisible]) ∧
        w.countP (· = CWarning.extraSpefsDeprecated) = 0) ∧
    (xs.length % 4 = 0 →
      (∀ q ∈ quadruples xs, hashable q.1 = true) →
      (quadruples xs).Pairwise (fun a b => pyEq a.1 b.1 = false) →
      ∃ w, process_variable_list ws [macrosVariable] [] =
          .ok ([("MACROS", .dict ((quadruples xs).map (fun q =>
            (q.1, Value.macroObj q.1 (.path "")
              (.dict [(.str "min_*", .list [q.2.1]), (.str "nom_*", .list [q.2.2.1]),
                      (.str "max_*", .list [q.2.2.2])])))))], w, []) ∧
        w.countP (· = CWarning.extraSpefsDeprecated) = 1 ∧
        (quadruples xs).length = xs.length / 4) := by
  have hm0 : spefMacros0 ws = .dict [] := by
    unfold macrosAbsentOrFalsy at hmac
    unfold spefMacros0
    split at hmac
    · simp_all
    · simp_all
  have hm2get : wsGet (wsDel (wsSet ws "MACROS" (spefMacros0 ws)) "EXTRA_SPEFS") "MACROS" =
      some (.dict []) := by
    rw [wsGet_del_ne _ _ _ (by decide), wsGet_set_self, hm0]
  constructor
  · intro hlen
    refine ⟨leftoverWarnings (pySorted
      ((wsDel (wsDel (wsSet ws "MACROS" (spefMacros0 ws)) "EXTRA_SPEFS") "MACROS").map
        Prod.fst)) [], ?_, leftover_countP_spef _ _⟩
    simp only [process_variable_list]
    rw [disStep_skip _ hdis]
    simp only [bind, Except.bind]
    rw [spefStep_list_badlen ⟨ws, [], [], []⟩ xs hes hlen]
    simp only [compileLoop, macrosVariable]
    rw [hm2get]
    simp [compileLoop, wsSet]
  · intro hlen hh hdist
    have hins := insertMacros_ok xs (wsDel (wsSet ws "MACROS" (spefMacros0 ws)) "EXTRA_SPEFS")
      [] hm2get hlen hh (fun q _ kv hkv => absurd hkv (List.not_mem_nil kv)) hdist
    simp only [List.nil_append] at hins
    refine ⟨[CWarning.extraSpefsDeprecated] ++ leftoverWarnings (pySorted
      ((wsDel (wsSet (wsDel (wsSet ws "MACROS" (spefMacros0 ws)) "EXTRA_SPEFS") "MACROS"
        (.dict ((quadruples xs).map (fun q => (q.1, macroDictOf q.1 q.2.1 q.2.2.1 q.2.2.2)))))
        "MACROS").map Prod.fst)) [], ?_, ?_, quadruples_length xs hlen⟩
    · simp only [process_variable_list]
      rw [disStep_skip _ hdis]
      simp only [bind, Except.bind]
      rw [spefStep_list_ok ⟨ws, [], [], []⟩ xs _ hes hlen hins]
      simp only [compileLoop, macrosVariable]
      rw [wsGet_set_self]
      simp only [compileLoop, wsSet]
      simp only [List.map_map]
      have hrec : ((quadruples xs).map
          ((fun kv => (kv.1, compileMacroRecord kv.2)) ∘
            (fun q => (q.1, macroDictOf q.1 q.2.1 q.2.2.1 q.2.2.2)))) =
          (quadruples xs).map (fun q => (q.1, Value.macroObj q.1 (.str "/dev/null")
            (.dict [(.str "min_*", .list [q.2.1]), (.str "nom_*", .list [q.2.2.1]),
                    (.str "max_*", .list [q.2.2.2])]))) := by
        apply List.map_congr_left
        intro q _
        simp [Function.comp, compileMacroRecord_macroDictOf]
      rw [hrec]
      have hnorm : normalizeMacros [("MACROS", .dict ((quadruples xs).map (fun q =>
          (q.1, Value.macroObj q.1 (.str "/dev/null")
            (.dict [(.str "min_*", .list [q.2.1]), (.str "nom_*", .list [q.2.2.1]),
                    (.str "max_*", .list [q.2.2.2])])))))] =
          .ok [("MACROS", .dict ((quadruples xs).map (fun q =>
          (q.1, Value.macroObj q.1 (.path "")
            (.dict [(.str "min_*", .list [q.2.1]), (.str "nom_*", .list [q.2.2.1]),
                    (.str "max_*", .list [q.2.2.2])])))))] := by
        have hmapM := mapM_ok_of_forall
          ((quadruples xs).map (fun q => ((q.1, Value.macroObj q.1 (.str "/dev/null")
            (.dict [(.str "min_*", .list [q.2.1]), (.str "nom_*", .list [q.2.2.1]),
                    (.str "max_*", .list [q.2.2.2])])) : Value × Value)))
          (fun kv => (normalizeMacro1 kv.2).map (fun v => (kv.1, v)))
          (fun kv => (kv.1, match kv.2 with
            | Value.macroObj mo _ s => Value.macroObj mo (.path "") s
            | v => v))
          (by
            intro x hx
            rcases List.mem_map.mp hx with ⟨q, _, rfl⟩
            rfl)
        have hCg : ((quadruples xs).map (fun q => ((q.1, Value.macroObj q.1 (.str "/dev/null")
            (.dict [(.str "min_*", .list [q.2.1]), (.str "nom_*", .list [q.2.2.1]),
                    (.str "max_*", .list [q.2.2.2])])) : Value × Value))).map
            (fun kv => ((kv.1, match kv.2 with
              | Value.macroObj mo _ s => Value.macroObj mo (.path "") s
              | v => v) : Value × Value)) =
            (quadruples xs).map (fun q => (q.1, Value.macroObj q.1 (.path "")
              (.dict [(.str "min_*", .list [q.2.1]), (.str "nom_*", .list [q.2.2.1]),
                      (.str "max_*", .list [q.2.2.2])]))) := by
          rw [List.map_map]
          exact List.map_congr_left (fun q _ => rfl)
        rw [hCg] at hmapM
        have h0 := normalizeMacros_dict
          [("MACROS", .dict ((quadruples xs).map (fun q => ((q.1,
            Value.macroObj q.1 (.str "/dev/null")
              (.dict [(.str "min_*", .list [q.2.1]), (.str "nom_*", .list [q.2.2.1]),
                      (.str "max_*", .list [q.2.2.2])])) : Value × Value))))]
          _ _ rfl hmapM
        rw [h0]
        simp [wsSet]
      rw [hnorm]
      simp
    · simp [List.countP_cons, leftover_countP_spef]

/-- Witness for `extra_spefs_migration`: a flat list of length 8 yields
exactly two macro records, each with its geometry reference normalized to
an empty path. -/
theorem extra_spefs_migration_witness :
    ∃ w, process_variable_list
        [("EXTRA_SPEFS", .list [.str "m1", .str "a", .str "b", .str "c",
                                .str "m2", .str "d", .str "e", .str "f"])] [macrosVariable] [] =
        .ok ([("MACROS", .dict ((quadruples [.str "m1", .str "a", .str "b", .str "c",
                                .str "m2", .str "d", .str "e", .str "f"]).map (fun q =>
          (q.1, Value.macroObj q.1 (.path "")
            (.dict [(.str "min_*", .list [q.2.1]), (.str "nom_*", .list [q.2.2.1]),
                    (.str "max_*", .list [q.2.2.2])])))))], w, []) ∧
      w.countP (· = CWarning.extraSpefsDeprecated) = 1 ∧
      (quadruples [Value.str "m1", .str "a", .str "b", .str "c",
                   .str "m2", .str "d", .str "e", .str "f"]).length =
        ([Value.str "m1", .str "a", .str "b", .str "c",
          .str "m2", .str "d", .str "e", .str "f"] : List Value).length / 4 :=
  (extra_spefs_migration
      [("EXTRA_SPEFS", .list [.str "m1", .str "a", .str "b", .str "c",
                              .str "m2", .str "d", .str "e", .str "f"])]
      [.str "m1", .str "a", .str "b", .str "c", .str "m2", .str "d", .str "e", .str "f"]
      rfl rfl trivial).2 rfl (by decide) (by decide)

/-! ## C2: error aggregation -/

theorem compileLoop_errors :
    ∀ (variableList : List Variable) (mtbl : WorkingSet) (fin : FinalSet)
      (w : List CWarning) (e : List CError),
    (compileLoop variableList mtbl fin w e).2.2.2 =
      e ++ specPerVariableErrors variableList mtbl fin w
  | [], mtbl, fin, w, e => by simp [compileLoop, specPerVariableErrors]
  | v :: rest, mtbl, fin, w, e => by
    simp only [compileLoop, specPerVariableErrors]
    cases hc : v.compile mtbl w fin with
    | ok r =>
      obtain ⟨key, value_processed, w'⟩ := r
      rw [compileLoop_errors rest _ _ _ _]
    | error msg =>
      rw [compileLoop_errors rest _ _ _ _]
      simp

/-- C2: (i) the compilation loop attempts every variable: its error
output extends the incoming list with `specPerVariableErrors`, which by
construction contributes exactly one entry per failing variable, in
variable-list order, and keeps walking the remaining variables after a
failure; (ii) the aggregated-error decision of `_load_dict` (its
`finishDesignLoad` tail): a delivered configuration implies the error
list was empty and is exactly the validated one, a raised error names the
design configuration file and carries the full warning list and the full
(non-empty) error list extending the validator's, it never raises when
the error list is empty and the metadata is absent or valid, and with no
metadata the raised error list is exactly the validator's. -/
theorem validator_error_aggregation :
    (∀ (variableList : List Variable) (mtbl : WorkingSet) (fin : FinalSet)
       (w : List CWarning) (e : List CError),
      (compileLoop variableList mtbl fin w e).2.2.2 =
        e ++ specPerVariableErrors variableList mtbl fin w) ∧
    (∀ (fin : FinalSet) (w : List CWarning) (e : List CError) (metaRaw : Option Value),
      (∀ cfg mm, finishDesignLoad fin w e metaRaw = .ok (cfg, mm) → e = [] ∧ cfg = fin) ∧
      (∀ src w' e', finishDesignLoad fin w e metaRaw =
          .error (.invalidConfig src w' e') →
        src = "design configuration file" ∧ w' = w ∧ e' ≠ [] ∧ e <+: e') ∧
      (e = [] → metaRaw = none → finishDesignLoad fin w e metaRaw = .ok (fin, defaultMeta)) ∧
      (e ≠ [] → metaRaw = none →
        finishDesignLoad fin w e metaRaw =
          .error (.invalidConfig "design configuration file" w e))) := by
  constructor
  · exact compileLoop_errors
  · intro fin w e metaRaw
    refine ⟨?_, ?_, ?_, ?_⟩
    · intro cfg mm h
      rcases metaRaw with _ | m
      · simp only [finishDesignLoad] at h
        split at h
        · cases h; exact ⟨List.isEmpty_iff.mp (by assumption), rfl⟩
        · cases h
      · simp only [finishDesignLoad] at h
        rcases hm : metaParse m with msg | mm2
        · rw [hm] at h
          simp only at h
          split at h
          · rename_i hemp
            simp at hemp
          · cases h
        · rw [hm] at h
          simp only at h
          split at h
          · rename_i hemp
            cases h
            exact ⟨List.isEmpty_iff.mp hemp, rfl⟩
          · cases h
    · intro src w' e' h
      rcases metaRaw with _ | m
      · simp only [finishDesignLoad] at h
        split at h
        · cases h
        · rename_i hemp
          cases h
          exact ⟨rfl, rfl, fun he => by simp [he] at hemp, List.prefix_refl e⟩
      · simp only [finishDesignLoad] at h
        rcases hm : metaParse m with msg | mm2
        · rw [hm] at h
          simp only at h
          split at h
          · rename_i hemp
            simp at hemp
          · rename_i hemp
            cases h
            exact ⟨rfl, rfl, fun he => by simp [he] at hemp, List.prefix_append e _⟩
        · rw [hm] at h
          simp only at h
          split at h
          · cases h
          · rename_i hemp
            cases h
            exact ⟨rfl, rfl, fun he => by simp [he] at hemp, List.prefix_refl e⟩
    · rintro rfl rfl
      rfl
    · intro hne hmr
      subst hmr
      simp only [finishDesignLoad]
      split
      · rename_i hemp
        exact absurd (List.isEmpty_iff.mp hemp) hne
      · rfl

/-- Witness for `validator_error_aggregation`: a two-variable list whose
first compile fails and second succeeds yields exactly the one error, and
the aggregated decision raises exactly on it. -/
theorem validator_error_aggregation_witness :
    (compileLoop
        [⟨"A", fun _ _ _ => .error "A failed"⟩,
         ⟨"B", fun _ w _ => .ok (none, .int 1, w)⟩] [] [] [] []).2.2.2 =
      [] ++ specPerVariableErrors
        [⟨"A", fun _ _ _ => .error "A failed"⟩,
         ⟨"B", fun _ w _ => .ok (none, .int 1, w)⟩] [] [] [] ∧
    finishDesignLoad [] [] [.compileError "A failed"] none =
      .error (.invalidConfig "design configuration file" [] [.compileError "A failed"]) :=
  ⟨validator_error_aggregation.1 _ [] [] [] [],
   (validator_error_aggregation.2 [] [] [.compileError "A failed"] none).2.2.2
     (by simp) rfl⟩

/-! ## C7: the missing-technology error precedes file access -/

theorem wsGet_resolveSpecial_none (raw : WorkingSet) (k : String)
    (h : wsGet raw k = none) : wsGet (resolveSpecial raw) k = none := by
  induction raw with
  | nil => rfl
  | cons kv rest ih =>
    simp only [wsGet] at h
    by_cases hk : kv.1 = k
    · rw [if_pos hk] at h
      cases h
    · rw [if_neg hk] at h
      simp only [resolveSpecial, List.filter_cons]
      split
      · simp only [wsGet, if_neg hk]
        exact ih h
      · exact ih h

/-- C7: for every load invocation of the in-memory-mapping pipeline where
no technology name is given as an explicit argument and the raw mapping
(after overrides) has no technology key, `_load_dict` raises the
`ValueError` demanding a `pdk` — and it does so for *every* possible
file-access oracle `ext`, i.e. before any technology file access can
influence or be required by the outcome. -/
theorem pdk_required_before_file_access (ext : Externals) (raw : WorkingSet)
    (flowConfigVars : List Variable) (configOverrideStrings : List String)
    (sclArg : Option String) (raw2 : WorkingSet)
    (hov : applyOverrides (stripMeta raw).2 configOverrideStrings = .ok raw2)
    (hpdk : wsGet raw2 "PDK" = none) :
    load_dict ext raw flowConfigVars configOverrideStrings none sclArg =
      .error .pdkRequired := by
  simp only [load_dict]
  rw [hov]
  simp only [Except.mapError, bind, Except.bind]
  rw [show effectivePdk (resolveSpecial raw2) none = none by
    simp [effectivePdk, wsGet_resolveSpecial_none raw2 "PDK" hpdk]]

/-- Witness for `pdk_required_before_file_access` at a concrete raw
mapping with no `PDK` key, with the not-found fetch oracle. -/
theorem pdk_required_before_file_access_witness :
    load_dict ⟨fetchNotFound, id, [], []⟩ [("DESIGN_NAME", .str "spm")] [] [] none none =
      .error .pdkRequired :=
  pdk_required_before_file_access ⟨fetchNotFound, id, [], []⟩ [("DESIGN_NAME", .str "spm")]
    [] [] none [("DESIGN_NAME", .str "spm")] rfl rfl

/-! ## C6: override strings and the technology layer -/

theorem applyOverrides_append (ws : WorkingSet) :
    ∀ (l1 l2 : List String), applyOverrides ws (l1 ++ l2) =
      match applyOverrides ws l1 with
      | .ok ws' => applyOverrides ws' l2
      | .error e => .error e := by
  intro l1
  induction l1 generalizing ws with
  | nil => intro l2; rfl
  | cons s rest ih =>
    intro l2
    simp only [List.cons_append, applyOverrides]
    cases splitOverride s with
    | ok p => exact ih _ l2
    | error e => rfl

theorem wsGet_resolveSpecial_special (raw : WorkingSet) (k : String)
    (hk : k ∈ specialKeysValues) : wsGet (resolveSpecial raw) k = wsGet raw k := by
  induction raw with
  | nil => rfl
  | cons kv rest ih =>
    simp only [resolveSpecial, List.filter_cons] at *
    by_cases hkv : kv.1 ∈ specialKeysValues
    · rw [if_pos (by simp [hkv])]
      by_cases hk2 : kv.1 = k
      · simp [wsGet, hk2]
      · simp [wsGet, hk2, ih]
    · rw [if_neg (by simp [hkv])]
      have hne : kv.1 ≠ k := fun e => hkv (e ▸ hk)
      simp [wsGet, hne, ih]

/-- C6 counterexample: the claim states that for every input source
format an override of the technology key determines which technology
layer is loaded. In the legacy-script path, the overrides are applied
only after the second script evaluation: with a script environment that
sets `PDK` to `"tclpdk"`, the pipeline fetches the PDK named by the
script — not the `"clipdk"` named by the override string. -/
theorem tcl_override_postextraction_cex :
    loads_tcl (fun env _ => wsSet env "PDK" (.str "tclpdk")) ⟨fetchNotFound, id, [], []⟩
      "" "dd" [] ["PDK=clipdk"] "/pdkroot" none none =
      .error (.invalidConfig "PDK configuration" [] [.pdkNotFound (.str "tclpdk")]) ∧
    ("tclpdk" : String) ≠ "clipdk" :=
  ⟨rfl, by decide⟩

/-- C6 amended: (a) for the in-memory/JSON pipeline, a trailing
`PDK=<name>` override string (with a non-empty name) is applied to the
raw mapping before special-key extraction, so the technology fetch is
invoked with exactly the overridden name — observed here with the
not-found fetch oracle, whose error names the PDK it was asked for;
(b) for the legacy-script pipeline, the PDK passed to the technology
fetch is the one extracted from the first script evaluation, for *every*
override-string list: overrides there are applied only after the
technology layer is loaded and cannot redirect it. -/
theorem override_technology_redirect (rf : WorkingSet → WorkingSet)
    (pv : List Variable) (rv : List (String × String)) :
    (∀ (raw rawX : WorkingSet) (flowConfigVars : List Variable) (ovs : List String)
       (s : String) (pdkArg : Option Value) (sclArg : Option String),
      s ≠ "" →
      applyOverrides (stripMeta raw).2 ovs = .ok rawX →
      load_dict ⟨fetchNotFound, rf, pv, rv⟩ raw flowConfigVars (ovs ++ ["PDK=" ++ s])
          pdkArg sclArg =
        .error (.invalidConfig "PDK configuration" [] [.pdkNotFound (.str s)])) ∧
    (∀ (envFromTcl : WorkingSet → String → WorkingSet) (config designDir : String)
       (flowConfigVars : List Variable) (ovs : List String) (pdkRoot : String)
       (pdkArg : Option Value) (sclArg : Option String) (p : Value),
      effectivePdk (resolveSpecial (envFromTcl
        (wsSet (wsSet [("PDK_ROOT", .str pdkRoot), ("PDK", pdkArg.getD .null)]
          "STD_CELL_LIBRARY" (.str "")) "DESIGN_DIR" (.str designDir)) config)) pdkArg =
        some p →
      loads_tcl envFromTcl ⟨fetchNotFound, rf, pv, rv⟩ config designDir flowConfigVars ovs
          pdkRoot pdkArg sclArg =
        .error (.invalidConfig "PDK configuration" [] [.pdkNotFound p])) := by
  constructor
  · intro raw rawX flowConfigVars ovs s pdkArg sclArg hs hov
    have hsp : splitOverride ("PDK=" ++ s) = .ok ("PDK", s) := rfl
    have hap : applyOverrides (stripMeta raw).2 (ovs ++ ["PDK=" ++ s]) =
        .ok (wsSet rawX "PDK" (.str s)) := by
      rw [applyOverrides_append, hov]
      simp [applyOverrides, hsp]
    simp only [load_dict]
    rw [hap]
    simp only [Except.mapError, bind, Except.bind]
    have heff : effectivePdk (resolveSpecial (wsSet rawX "PDK" (.str s))) pdkArg =
        some (.str s) := by
      simp only [effectivePdk]
      rw [wsGet_resolveSpecial_special (wsSet rawX "PDK" (.str s)) "PDK" (by decide),
        wsGet_set_self]
      simp [pyTruthy, hs]
    rw [heff]
    rfl
  · intro envFromTcl config designDir flowConfigVars ovs pdkRoot pdkArg sclArg p hp
    simp only [loads_tcl]
    rw [hp]
    rfl

/-- Witness for `override_technology_redirect`, with a concrete raw
mapping whose own `PDK` is overridden to `"sky130A"`, and a concrete
script environment naming `"gf180"`. -/
theorem override_technology_redirect_witness :
    load_dict ⟨fetchNotFound, id, [], []⟩ [("PDK", .str "asap7")] [] ["PDK=sky130A"] none none =
      .error (.invalidConfig "PDK configuration" [] [.pdkNotFound (.str "sky130A")]) ∧
    loads_tcl (fun env _ => wsSet env "PDK" (.str "gf180")) ⟨fetchNotFound, id, [], []⟩
        "src" "dd" [] ["PDK=ihp130", "X=1"] "/root" none none =
      .error (.invalidConfig "PDK configuration" [] [.pdkNotFound (.str "gf180")]) :=
  ⟨by
    have h := (override_technology_redirect id [] []).1 [("PDK", .str "asap7")]
      [("PDK", .str "asap7")] [] [] "sky130A" none none (by decide) rfl
    simpa using h,
   (override_technology_redirect id [] []).2 (fun env _ => wsSet env "PDK" (.str "gf180"))
     "src" "dd" [] ["PDK=ihp130", "X=1"] "/root" none none (.str "gf180") rfl⟩

/-! ## C8: idempotence on an already-resolved configuration -/

theorem wsGet_eq_none_of_not_mem {A : Type} (ws : List (String × A)) (k : String)
    (h : k ∉ ws.map Prod.fst) : wsGet ws k = none := by
  induction ws with
  | nil => rfl
  | cons kv rest ih =>
    simp only [List.map_cons, List.mem_cons, not_or] at h
    simp only [wsGet, if_neg (Ne.symm h.1)]
    exact ih h.2

theorem wsSet_append_of_not_mem {A : Type} (ws : List (String × A)) (k : String) (v : A)
    (h : k ∉ ws.map Prod.fst) : wsSet ws k v = ws ++ [(k, v)] := by
  induction ws with
  | nil => rfl
  | cons kv rest ih =>
    simp only [List.map_cons, List.mem_cons, not_or] at h
    simp only [wsSet, if_neg (Ne.symm h.1), List.cons_append]
    rw [ih h.2]

theorem compileLoop_resolved :
    ∀ (variableList : List Variable) (c : WorkingSet) (fin : FinalSet)
      (w : List CWarning) (e : List CError),
    c.map Prod.fst = variableList.map Variable.name →
    (variableList.map Variable.name).Nodup →
    (∀ v ∈ variableList, v.name ∉ fin.map Prod.fst) →
    (∀ v ∈ variableList, ∀ val, wsGet c v.name = some val →
      ∀ mtbl w' fin', wsGet mtbl v.name = some val →
        v.compile mtbl w' fin' = .ok (some v.name, val, w')) →
    compileLoop variableList c fin w e = ([], fin ++ c, w, e)
  | [], c, fin, w, e, hkeys, _, _, _ => by
    have hc : c = [] := by
      cases c with
      | nil => rfl
      | cons kv rest => simp at hkeys
    subst hc
    simp [compileLoop]
  | v :: rest, c, fin, w, e, hkeys, hnodup, hfin, hcomp => by
    cases c with
    | nil => simp at hkeys
    | cons kv c' =>
      simp only [List.map_cons, List.cons.injEq] at hkeys
      obtain ⟨hk0, hkeys'⟩ := hkeys
      have hget : wsGet (kv :: c') v.name = some kv.2 := by simp [wsGet, hk0]
      have hc := hcomp v (List.mem_cons_self _ _) kv.2 hget (kv :: c') w fin hget
      simp only [compileLoop, hc]
      have hdel : wsDel (kv :: c') v.name = c' := by simp [wsDel, hk0]
      rw [hdel]
      have hnodup2 : (∀ x ∈ rest, ¬x.name = v.name) ∧ (rest.map Variable.name).Nodup := by
        simpa using hnodup
      have hset : wsSet fin v.name kv.2 = fin ++ [(v.name, kv.2)] :=
        wsSet_append_of_not_mem fin v.name kv.2 (hfin v (List.mem_cons_self _ _))
      rw [hset]
      have hf' : ∀ u ∈ rest, u.name ∉ (fin ++ [(v.name, kv.2)]).map Prod.fst := by
        intro u hu
        simp only [List.map_append, List.mem_append, List.map_cons, List.map_nil,
          List.mem_singleton, not_or]
        refine ⟨hfin u (List.mem_cons_of_mem _ hu), ?_⟩
        intro he
        exact hnodup2.1 u hu he
      have hc' : ∀ u ∈ rest, ∀ val, wsGet c' u.name = some val →
          ∀ mtbl w' fin', wsGet mtbl u.name = some val →
            u.compile mtbl w' fin' = .ok (some u.name, val, w') := by
        intro u hu val hval mtbl w' fin' hmtbl
        have hne : kv.1 ≠ u.name := by
          rw [hk0]
          intro he
          exact hnodup2.1 u hu he.symm
        have hval' : wsGet (kv :: c') u.name = some val := by
          simp only [wsGet, if_neg hne]
          exact hval
        exact hcomp u (List.mem_cons_of_mem _ hu) val hval' mtbl w' fin' hmtbl
      rw [compileLoop_resolved rest c' (fin ++ [(v.name, kv.2)]) w e hkeys' hnodup2.2 hf' hc']
      obtain ⟨k0, v0⟩ := kv
      have hk0' : k0 = v.name := hk0
      subst hk0'
      simp

/-- C8: running an already-fully-resolved configuration — one whose keys
are exactly the variable names, in order — through the validator again
with the same variable list and removed table yields the identical
configuration and empty warning and error lists, provided each variable's
compile operation maps its own already-normalized value to itself
(consuming its key and adding no warnings) and no variable is named after
a legacy key. -/
theorem validator_idempotent (c : WorkingSet) (variableList : List Variable)
    (removed : List (String × String))
    (hkeys : c.map Prod.fst = variableList.map Variable.name)
    (hnodup : (variableList.map Variable.name).Nodup)
    (hnames : ∀ v ∈ variableList,
      v.name ≠ "DIODE_INSERTION_STRATEGY" ∧ v.name ≠ "EXTRA_SPEFS")
    (hcompile : ∀ v ∈ variableList, ∀ val, wsGet c v.name = some val →
      ∀ mtbl w' fin', wsGet mtbl v.name = some val →
        v.compile mtbl w' fin' = .ok (some v.name, val, w')) :
    process_variable_list c variableList removed = .ok (c, [], []) := by
  have hdis : wsGet c "DIODE_INSERTION_STRATEGY" = none := by
    apply wsGet_eq_none_of_not_mem
    rw [hkeys]
    intro hm
    rcases List.mem_map.mp hm with ⟨u, hu, he⟩
    exact (hnames u hu).1 he
  have hes : wsGet c "EXTRA_SPEFS" = none := by
    apply wsGet_eq_none_of_not_mem
    rw [hkeys]
    intro hm
    rcases List.mem_map.mp hm with ⟨u, hu, he⟩
    exact (hnames u hu).2 he
  simp only [process_variable_list]
  rw [disStep_skip _ hdis]
  simp only [bind, Except.bind]
  rw [spefStep_skip _ hes]
  have hcl := compileLoop_resolved variableList c [] [] [] hkeys hnodup (by simp) hcompile
  simp [hcl, leftoverWarnings, pySorted]

/-- Witness for `validator_idempotent` at a concrete one-variable
configuration whose compile echoes the stored value. -/
theorem validator_idempotent_witness :
    process_variable_list [("X", .int 42)]
      [⟨"X", fun mtbl w _ =>
        match wsGet mtbl "X" with
        | some xv => .ok (some "X", xv, w)
        | none => .error "X missing"⟩] [] =
      .ok ([("X", .int 42)], [], []) :=
  validator_idempotent [("X", .int 42)]
    [⟨"X", fun mtbl w _ =>
      match wsGet mtbl "X" with
      | some xv => .ok (some "X", xv, w)
      | none => .error "X missing"⟩] []
    rfl (by decide)
    (by
      intro v hv
      rcases List.mem_singleton.mp hv with rfl
      exact ⟨by decide, by decide⟩)
    (by
      intro v hv val hval mtbl w' fin' hmtbl
      rcases List.mem_singleton.mp hv with rfl
      simp [hmtbl])

/-! ## C9: the frame of the receiver in the aliasing model -/

theorem get?_set_ne {A : Type} : ∀ (l : List A) (i j : Nat) (a : A), i ≠ j →
    (l.set i a).get? j = l.get? j
  | [], _, _, _, _ => rfl
  | x :: xs, 0, 0, a, h => absurd rfl h
  | x :: xs, 0, j + 1, a, _ => rfl
  | x :: xs, i + 1, 0, a, _ => rfl
  | x :: xs, i + 1, j + 1, a, h => get?_set_ne xs i j a (fun e => h (by omega))

theorem get?_set_self {A : Type} : ∀ (l : List A) (i : Nat) (a : A), i < l.length →
    (l.set i a).get? i = some a
  | [], i, a, h => by simp at h
  | x :: xs, 0, a, _ => rfl
  | x :: xs, i + 1, a, h => get?_set_self xs i a (by simpa using h)

theorem get?_append_left {A : Type} : ∀ (l : List A) (c : A) (i : Nat), i < l.length →
    (l ++ [c]).get? i = l.get? i
  | [], c, i, h => by simp at h
  | x :: xs, c, 0, _ => rfl
  | x :: xs, c, i + 1, h => get?_append_left xs c i (by simpa using h)

theorem get?_append_length {A : Type} : ∀ (l : List A) (c : A), (l ++ [c]).get? l.length = some c
  | [], c => rfl
  | x :: xs, c => get?_append_length xs c

theorem readCell_write_ne (h : Heap) (r r' : Nat) (c : List (String × HValue)) (hne : r' ≠ r) :
    readCell (writeCell h r c) r' = readCell h r' := by
  simp only [readCell, writeCell]
  rw [get?_set_ne h r r' c (fun e => hne e.symm)]

theorem readCell_write_self (h : Heap) (r : Nat) (c : List (String × HValue))
    (hr : r < h.length) : readCell (writeCell h r c) r = c := by
  simp only [readCell, writeCell]
  rw [get?_set_self h r c hr]
  rfl

theorem readCell_append_left (h : Heap) (c : List (String × HValue)) (r : Nat)
    (hr : r < h.length) : readCell (h ++ [c]) r = readCell h r := by
  simp only [readCell]
  rw [get?_append_left h c r hr]

theorem readCell_append_self (h : Heap) (c : List (String × HValue)) :
    readCell (h ++ [c]) h.length = c := by
  simp only [readCell]
  rw [get?_append_length h c]
  rfl

theorem disStepH_cases (st st' : HMigState) (hok : disStepH st = .ok st') :
    st' = st ∨ st'.mutRef = st.mutRef ∧ st'.heap =
      writeCell st.heap st.mutRef
        (wsDel (readCell st.heap st.mutRef) "DIODE_INSERTION_STRATEGY") := by
  simp only [disStepH] at hok
  split at hok
  · cases hok
    exact Or.inl rfl
  · cases hok
    exact Or.inl rfl
  · split at hok
    · cases hok
    · cases hok
      exact Or.inr ⟨rfl, rfl⟩
    · split at hok
      · cases hok
        exact Or.inr ⟨rfl, rfl⟩
      · cases hok
        exact Or.inr ⟨rfl, rfl⟩

theorem disStepH_spec (st st' : HMigState) (hok : disStepH st = .ok st')
    (hlt : st.mutRef < st.heap.length) :
    st'.mutRef = st.mutRef ∧ st'.heap.length = st.heap.length ∧
    (∀ r, r ≠ st.mutRef → readCell st'.heap r = readCell st.heap r) ∧
    (∀ k, k ≠ "DIODE_INSERTION_STRATEGY" →
      wsGet (readCell st'.heap st.mutRef) k = wsGet (readCell st.heap st.mutRef) k) := by
  rcases disStepH_cases st st' hok with rfl | ⟨hm, hh⟩
  · exact ⟨rfl, rfl, fun _ _ => rfl, fun _ _ => rfl⟩
  · refine ⟨hm, ?_, ?_, ?_⟩
    · rw [hh]
      simp [writeCell]
    · intro r hr
      rw [hh]
      exact readCell_write_ne _ _ _ _ hr
    · intro k hk
      rw [hh, readCell_write_self _ _ _ hlt]
      exact wsGet_del_ne _ _ _ hk

theorem insertMacrosH_frame :
    ∀ (xs : List HValue) (h : Heap) (mutRef r : Nat) (h' : Heap),
    insertMacrosH xs h mutRef = .ok h' →
    (∀ r2, wsGet (readCell h mutRef) "MACROS" = some (.dref r2) → r2 ≠ r ∧ r2 ≠ mutRef) →
    readCell h' r = readCell h r ∧ h'.length = h.length
  | [], h, mutRef, r, h', hok, _ => by
    cases hok
    exact ⟨rfl, rfl⟩
  | module :: mn :: nom :: mx :: rest, h, mutRef, r, h', hok, hinv => by
    simp only [insertMacrosH] at hok
    split at hok
    · rename_i s
      split at hok
      · rename_i r2 heq
        obtain ⟨hr2r, hr2m⟩ := hinv r2 heq
        have hse : readCell (writeCell h r2 (wsSet (readCell h r2) s
            (macroDictOfH (.str s) mn nom mx))) r = readCell h r :=
          readCell_write_ne _ _ _ _ (fun e => hr2r e.symm)
        have hsm : readCell (writeCell h r2 (wsSet (readCell h r2) s
            (macroDictOfH (.str s) mn nom mx))) mutRef = readCell h mutRef :=
          readCell_write_ne _ _ _ _ (fun e => hr2m e.symm)
        have rec := insertMacrosH_frame rest _ mutRef r h' hok
          (by
            intro r2' hg'
            rw [hsm] at hg'
            exact hinv r2' hg')
        refine ⟨rec.1.trans hse, rec.2.trans ?_⟩
        simp [writeCell]
      · cases hok
    · cases hok

theorem compileLoopH_frame :
    ∀ (variableList : List HVariable) (h : Heap) (mutRef : Nat)
      (fin : List (String × HValue)) (w : List CWarning) (e : List CError) (r : Nat),
    r ≠ mutRef →
    readCell (compileLoopH variableList h mutRef fin w e).1 r = readCell h r
  | [], _, _, _, _, _, _, _ => rfl
  | v :: rest, h, mutRef, fin, w, e, r, hne => by
    simp only [compileLoopH]
    cases v.compile (readCell h mutRef) w fin with
    | ok res =>
      obtain ⟨key, val, w'⟩ := res
      cases key with
      | some k =>
        rw [compileLoopH_frame rest _ mutRef _ _ _ r hne]
        exact readCell_write_ne _ _ _ _ hne
      | none => exact compileLoopH_frame rest _ mutRef _ _ _ r hne
    | error msg => exact compileLoopH_frame rest _ mutRef _ _ _ r hne

theorem spefSetup_spec (st : HMigState) (r : Nat)
    (hlt : st.mutRef < st.heap.length) (hner : r ≠ st.mutRef) (hrlt : r < st.heap.length) :
    readCell (spefSetup st) r = readCell st.heap r ∧
    st.mutRef < (spefSetup st).length ∧
    (∀ r2, wsGet (readCell (spefSetup st) st.mutRef) "MACROS" = some (.dref r2) →
      wsGet (readCell st.heap st.mutRef) "MACROS" = some (.dref r2) ∨ r2 = st.heap.length) := by
  cases hgm : wsGet (readCell st.heap st.mutRef) "MACROS" with
  | none =>
    simp only [spefSetup, hgm, allocCell]
    have hlt1 : st.mutRef < (st.heap ++ [[]]).length := by
      simp
      omega
    refine ⟨?_, ?_, ?_⟩
    · rw [readCell_write_ne _ _ _ _ hner, readCell_write_ne _ _ _ _ hner,
        readCell_append_left _ _ _ hrlt]
    · simp [writeCell]
      omega
    · intro r2 h2
      rw [readCell_write_self _ _ _ (by simpa [writeCell] using hlt1)] at h2
      rw [wsGet_del_ne _ _ _ (by decide)] at h2
      rw [readCell_write_self _ _ _ hlt1] at h2
      rw [wsGet_set_self] at h2
      cases h2
      exact Or.inr rfl
  | some mv =>
    by_cases htr : hTruthy st.heap mv
    · simp only [spefSetup, hgm, htr, if_true]
      have hlt1 : st.mutRef < st.heap.length := hlt
      refine ⟨?_, ?_, ?_⟩
      · rw [readCell_write_ne _ _ _ _ hner, readCell_write_ne _ _ _ _ hner]
      · simp [writeCell]
        omega
      · intro r2 h2
        rw [readCell_write_self _ _ _ (by simpa [writeCell] using hlt1)] at h2
        rw [wsGet_del_ne _ _ _ (by decide)] at h2
        rw [readCell_write_self _ _ _ hlt1] at h2
        rw [wsGet_set_self] at h2
        cases h2
        exact Or.inl rfl
    · simp only [spefSetup, hgm, htr, Bool.false_eq_true, if_false, allocCell]
      have hlt1 : st.mutRef < (st.heap ++ [[]]).length := by
        simp
        omega
      refine ⟨?_, ?_, ?_⟩
      · rw [readCell_write_ne _ _ _ _ hner, readCell_write_ne _ _ _ _ hner,
          readCell_append_left _ _ _ hrlt]
      · simp [writeCell]
        omega
      · intro r2 h2
        rw [readCell_write_self _ _ _ (by simpa [writeCell] using hlt1)] at h2
        rw [wsGet_del_ne _ _ _ (by decide)] at h2
        rw [readCell_write_self _ _ _ hlt1] at h2
        rw [wsGet_set_self] at h2
        cases h2
        exact Or.inr rfl

theorem spefStepH_spec (st st' : HMigState) (tr : Bool) (r : Nat)
    (hok : spefStepH st = .ok (st', tr))
    (hlt : st.mutRef < st.heap.length)
    (hner : r ≠ st.mutRef)
    (hrlt : r < st.heap.length)
    (hmac2 : ∀ r2, wsGet (readCell st.heap st.mutRef) "MACROS" = some (.dref r2) →
      r2 ≠ r ∧ r2 ≠ st.mutRef) :
    readCell st'.heap r = readCell st.heap r ∧ st'.mutRef = st.mutRef ∧
      st.mutRef < st'.heap.length := by
  obtain ⟨hsf, hsl, hsm⟩ := spefSetup_spec st r hlt hner hrlt
  have hinv : ∀ r2, wsGet (readCell (spefSetup st) st.mutRef) "MACROS" = some (.dref r2) →
      r2 ≠ r ∧ r2 ≠ st.mutRef := by
    intro r2 h2
    rcases hsm r2 h2 with h3 | rfl
    · exact hmac2 r2 h3
    · exact ⟨by omega, by omega⟩
  simp only [spefStepH] at hok
  split at hok
  · cases hok
    exact ⟨rfl, rfl, hlt⟩
  · cases hok
    exact ⟨rfl, rfl, hlt⟩
  · split at hok
    · split at hok
      · cases hok
        exact ⟨hsf, rfl, hsl⟩
      · split at hok
        · rename_i h3 hins
          cases hok
          obtain ⟨hf3, hl3⟩ := insertMacrosH_frame _ _ _ _ _ hins hinv
          refine ⟨hf3.trans hsf, rfl, ?_⟩
          show st.mutRef < h3.length
          omega
        · cases hok
    · cases hok
      exact ⟨hsf, rfl, hsl⟩

/-- C9 counterexample: the claim states the validator never mutates the
configuration object it is invoked on. `Config.copy` is a *shallow* copy:
when the legacy list merges into a pre-existing non-empty `MACROS`
dictionary, the quadruple loop writes through the shared reference, and
after the call the receiver's own nested macros dictionary has gained the
new module entry. -/
theorem pvlH_nested_mutation_cex :
    (match processVariableListH
        [[("MACROS", .dref 1),
          ("EXTRA_SPEFS", .list [.str "m2", .str "a", .str "b", .str "c"])],
         [("m1", .int 0)]] 0
        [⟨"MACROS", fun _ w _ => .ok (some "MACROS", .dict [], w)⟩] [] with
     | .ok res => readCell res.1 1
     | .error _ => []) =
      [("m1", .int 0), ("m2", macroDictOfH (.str "m2") (.str "a") (.str "b") (.str "c"))] ∧
    readCell [[("MACROS", HValue.dref 1),
        ("EXTRA_SPEFS", HValue.list [.str "m2", .str "a", .str "b", .str "c"])],
      [("m1", HValue.int 0)]] 1 = [("m1", .int 0)] :=
  ⟨rfl, rfl⟩

/-- C9 amended: the validator operates on a shallow copy of the receiver,
so the receiver's *top-level* mapping (its own dictionary object) is
unchanged by the call, for every variable list and removed table and
whether the pass succeeds or records errors; nested dictionary objects
shared through the shallow copy are however not protected — the legacy
macro migration can mutate a pre-existing nested macros dictionary in
place (see the counterexample). Stated over well-formed heaps: the
receiver exists, and a nested macros reference neither dangles nor aliases
the receiver's own cell. -/
theorem pvlH_receiver_top_frame (h : Heap) (selfRef : Nat)
    (variableList : List HVariable) (removed : List (String × String))
    (hself : selfRef < h.length)
    (hmac : ∀ r2, wsGet (readCell h selfRef) "MACROS" = some (.dref r2) →
      r2 ≠ selfRef ∧ r2 < h.length)
    (res : Heap × List (String × HValue) × List CWarning × List CError)
    (hres : processVariableListH h selfRef variableList removed = .ok res) :
    readCell res.1 selfRef = readCell h selfRef := by
  simp only [processVariableListH, allocCell, bind, Except.bind] at hres
  cases hd : disStepH ⟨h ++ [readCell h selfRef], h.length, [], [], []⟩ with
  | error e0 =>
    rw [hd] at hres
    simp at hres
  | ok st1 =>
    rw [hd] at hres
    simp only at hres
    have hlt0 : (⟨h ++ [readCell h selfRef], h.length, [], [], []⟩ : HMigState).mutRef <
        (⟨h ++ [readCell h selfRef], h.length, [], [], []⟩ : HMigState).heap.length := by
      simp
    obtain ⟨hm1, hl1, hf1, hg1⟩ := disStepH_spec _ st1 hd hlt0
    have hsne : selfRef ≠ h.length := by omega
    have hlt1 : st1.mutRef < st1.heap.length := by
      rw [hm1, hl1]
      simp
    have hner1 : selfRef ≠ st1.mutRef := by rw [hm1]; exact hsne
    have hrlt1 : selfRef < st1.heap.length := by
      rw [hl1]
      simp
      omega
    have hmac1 : ∀ r2, wsGet (readCell st1.heap st1.mutRef) "MACROS" = some (.dref r2) →
        r2 ≠ selfRef ∧ r2 ≠ st1.mutRef := by
      intro r2 hr2
      rw [hm1] at hr2
      rw [hg1 "MACROS" (by decide)] at hr2
      rw [readCell_append_self] at hr2
      obtain ⟨ha, hb⟩ := hmac r2 hr2
      refine ⟨ha, ?_⟩
      rw [hm1]
      show r2 ≠ h.length
      omega
    cases hs : spefStepH st1 with
    | error e1 =>
      rw [hs] at hres
      simp at hres
    | ok pr =>
      obtain ⟨st2, tr⟩ := pr
      rw [hs] at hres
      simp only at hres
      obtain ⟨hf2, hm2, hl2⟩ := spefStepH_spec st1 st2 tr selfRef hs hlt1 hner1 hrlt1 hmac1
      have hner2 : selfRef ≠ st2.mutRef := by rw [hm2, hm1]; exact hsne
      have hclframe := compileLoopH_frame variableList st2.heap st2.mutRef st2.final
        st2.warnings st2.errors selfRef hner2
      have hcl : compileLoopH variableList st2.heap st2.mutRef st2.final st2.warnings
          st2.errors =
          ((compileLoopH variableList st2.heap st2.mutRef st2.final st2.warnings st2.errors).1,
           (compileLoopH variableList st2.heap st2.mutRef st2.final st2.warnings st2.errors).2.1,
           (compileLoopH variableList st2.heap st2.mutRef st2.final st2.warnings st2.errors).2.2.1,
           (compileLoopH variableList st2.heap st2.mutRef st2.final st2.warnings st2.errors).2.2.2) :=
        rfl
      rw [hcl] at hres
      simp only at hres
      have hchain : readCell (compileLoopH variableList st2.heap st2.mutRef st2.final
          st2.warnings st2.errors).1 selfRef = readCell h selfRef := by
        rw [hclframe, hf2]
        rw [hf1 selfRef hsne]
        exact readCell_append_left h _ selfRef hself
      cases tr with
      | false =>
        rw [if_neg (by simp)] at hres
        cases hres
        exact hchain
      | true =>
        rw [if_pos rfl] at hres
        cases hn : normalizeMacrosH (compileLoopH variableList st2.heap st2.mutRef st2.final
            st2.warnings st2.errors).2.1 with
        | error e2 =>
          rw [hn] at hres
          simp at hres
        | ok f2 =>
          rw [hn] at hres
          simp only at hres
          cases hres
          exact hchain

theorem pvlH_receiver_top_frame_witness :
    processVariableListH [[("FOO", HValue.int 1)]] 0 [] [] =
      .ok ([[("FOO", .int 1)], [("FOO", .int 1)]], [],
           [CWarning.unknownKey "FOO"], []) ∧
    readCell [[("FOO", HValue.int 1)], [("FOO", HValue.int 1)]] 0 =
      readCell [[("FOO", HValue.int 1)]] 0 :=
  ⟨rfl,
   pvlH_receiver_top_frame [[("FOO", HValue.int 1)]] 0 [] []
     (by decide) (fun r2 hr2 => nomatch hr2)
     ([[("FOO", .int 1)], [("FOO", .int 1)]], [],
      [CWarning.unknownKey "FOO"], []) rfl⟩
